import Mathlib

/-!
Shallow embedding of the balanced chunk-shape solver of the brnc repository
(`shape2chunk` and `_ranges2product` in `src/brnc/_common.py`), together with
proofs of the specification claims about it.

Modelling conventions:
  * a Python `range(a, b)` object is represented by its two fields `start`
    and `stop` (the code only ever reads `.start` and `.stop`);
  * array extents and chunk values are `Nat`; the element budget `numel` is
    `Int` because the Python code accepts negative budgets;
  * `numpy.clip(x, lo, hi)` is `min (max x lo) hi` (maximum first, then
    minimum, as numpy does);
  * `np.nanargmin` (first index of the minimum among the non-NaN entries,
    raising when everything is NaN) is `argminVal` over `Option Int`
    entries, `none` playing the role of NaN;
  * the `np.argsort` of the small Phase-B row set is modelled as a stable
    insertion sort by row product, matching numpy behaviour on the small
    arrays involved;
  * every `raise ValueError` in the source is an `Except.error` with a
    constructor naming the error kind of the specification taxonomy.
-/

namespace Brnc

/-- One per-dimension admissible interval, the two fields of the Python
`range` object as used by the source (`rng.start`, `rng.stop`). -/
structure Rng where
  start : Nat
  stop : Nat
  deriving DecidableEq

/-- `numpy.clip`: maximum with the lower bound first, then minimum with the
upper bound. -/
def clip (x lo hi : Nat) : Nat := min (max x lo) hi

/-- Error kinds of the specification taxonomy for the `ValueError`s the
source can raise.  `emptyMax` models the unhandled `max([])` crash on an
empty range list, `allNaN` the `np.nanargmin` all-NaN crash. -/
inductive Err where
  | degenerateShape
  | invalidBudget
  | infeasibleBudget
  | emptyMax
  | allNaN
  deriving DecidableEq

/-- `np.nanargmin` with the index and the minimal value: first index of the
minimum among the `some` entries, `none` if every entry is `none`. -/
def argminVal : List (Option Int) → Option (Nat × Int)
  | [] => none
  | none :: rest => (argminVal rest).map (fun p => (p.1 + 1, p.2))
  | some v :: rest =>
    match argminVal rest with
    | none => some (0, v)
    | some (j, w) => if w < v then some (j + 1, w) else some (0, v)

/-- `np.where(delta > 0, np.nan, np.abs(delta))` for one row product `p`
against the budget `B`: the masked absolute delta. -/
def dOpt (B : Int) (p : Nat) : Option Int :=
  if (p : Int) ≤ B then some (B - p) else none

/-- `itertools.product([True, False], repeat=n)` cast to integers: all 0/1
lists of length `n`, the all-ones one first. -/
def zerone : Nat → List (List Nat)
  | 0 => [[]]
  | n + 1 => (zerone n).map (fun z => 1 :: z) ++ (zerone n).map (fun z => 0 :: z)

/-- The `starts` list of `_ranges2product`. -/
def startsOf (R : List Rng) : List Nat := R.map Rng.start

/-- The `stops` list of `_ranges2product`. -/
def stopsOf (R : List Rng) : List Nat := R.map Rng.stop

/-- `max_size = max(stops)` (the fold equals the Python `max` on the
non-empty lists the code reaches; the empty list is rejected earlier). -/
def maxStop (R : List Rng) : Nat := (stopsOf R).foldl max 0

/-- One Phase-A trial row: the candidate `k` clamped into every range. -/
def row (R : List Rng) (k : Nat) : List Nat :=
  R.map (fun r => clip k r.start r.stop)

/-- The Phase-A candidate grid: rows `k = 1 .. max_size`. -/
def rowsA (R : List Rng) : List (List Nat) :=
  (List.range (maxStop R)).map (fun j => row R (j + 1))

/-- `np.nanargmin(np.where(delta > 0, np.nan, np.abs(delta)))` over the
products of a list of rows. -/
def pickIdx (B : Int) (rs : List (List Nat)) : Option (Nat × Int) :=
  argminVal (rs.map (fun r => dOpt B r.prod))

/-- `np.clip(a + z, a_min=starts, a_max=stops)` for one 0/1 increment row
`z` applied to the Phase-A tuple `a`. -/
def addClip (R : List Rng) (a z : List Nat) : List Nat :=
  List.zipWith (fun s r => clip s r.start r.stop) (List.zipWith (· + ·) a z) R

/-- The Phase-B row set: every 0/1 increment combination applied to `a`. -/
def rowsB (R : List Rng) (a : List Nat) : List (List Nat) :=
  (zerone R.length).map (fun z => addClip R a z)

/-- `arr[np.argsort(arr.prod(axis=1))]`: the Phase-B rows sorted by product
(stable, as numpy behaves on these small arrays). -/
def sortedB (R : List Rng) (a : List Nat) : List (List Nat) :=
  List.insertionSort (fun r s => r.prod ≤ s.prod) (rowsB R a)

/-- `_ranges2product(rngs, prod)` of `src/brnc/_common.py`. -/
def ranges2product (R : List Rng) (B : Int) : Except Err (List Nat) :=
  if R.isEmpty then .error .emptyMax
  else if B < ((startsOf R).prod : Int) then .error .infeasibleBudget
  else
    match pickIdx B (rowsA R) with
    | none => .error .allNaN
    | some p =>
      match pickIdx B (sortedB R ((rowsA R).getD p.1 [])) with
      | none => .error .allNaN
      | some q => .ok ((sortedB R ((rowsA R).getD p.1 [])).getD q.1 [])

/-- The trial range list of one preference step (`rngs2` in the source):
dimensions of the current group keep their working range, every other
dimension is pinned to the start of its working range.  The counter is the
`enumerate` index. -/
def trialAux (axes : List Nat) : Nat → List Rng → List Rng
  | _, [] => []
  | i, r :: rest =>
    (if i ∈ axes then r else ⟨r.start, r.start⟩) :: trialAux axes (i + 1) rest

/-- `rngs2` of the source for one group. -/
def trialRngs (R : List Rng) (axes : List Nat) : List Rng := trialAux axes 0 R

/-- The working-range update after one group solve: group dimensions are
pinned to the solver value, other dimensions keep their range. -/
def pinAux (axes : List Nat) (chunks : List Nat) : Nat → List Rng → List Rng
  | _, [] => []
  | i, r :: rest =>
    (if i ∈ axes then ⟨chunks.getD i 0, chunks.getD i 0⟩ else r)
      :: pinAux axes chunks (i + 1) rest

/-- The updated `rngs` of the source after one group. -/
def pinRngs (R : List Rng) (axes : List Nat) (chunks : List Nat) : List Rng :=
  pinAux axes chunks 0 R

/-- One iteration of the `for axes in pref_axes` loop of `shape2chunk`. -/
def applyGroup (B : Int) (rngs : List Rng) (axes : List Nat) : Except Err (List Rng) :=
  (ranges2product (trialRngs rngs axes) B).map (fun chunks => pinRngs rngs axes chunks)

/-- The initial working ranges `[range(1, size) for size in shape]`. -/
def initRngs (shape : List Nat) : List Rng := shape.map (fun s => ⟨1, s⟩)

/-- `shape2chunk(shape=..., numel=..., pref_axes=...)` of
`src/brnc/_common.py`.  A bare integer entry of `pref_axes` is modelled as
the singleton group the source wraps it into. -/
def shape2chunk (shape : List Nat) (numel : Int)
    (prefAxes : Option (List (List Nat))) : Except Err (List Nat) :=
  if 0 ∈ shape then .error .degenerateShape
  else if numel = 0 then .error .invalidBudget
  else
    match (prefAxes.getD []).foldlM (fun rngs axes => applyGroup numel rngs axes)
        (initRngs shape) with
    | .error e => .error e
    | .ok rngs => ranges2product rngs numel

deriving instance DecidableEq for Except

/-- Default `Rng` used with `List.getD`. -/
def dRng : Rng := ⟨0, 0⟩

/-- Well-formedness invariant of every working-range list the orchestrator
produces: lower bounds are at least one, ranges are non-empty, and every
range is either a free range starting at `1` or pinned (`start = stop`). -/
def GoodRngs (R : List Rng) : Prop :=
  ∀ r ∈ R, 1 ≤ r.start ∧ r.start ≤ r.stop ∧ (r.start = 1 ∨ r.start = r.stop)

/-- Indexed form of the working-range invariant, additionally recording that
every range stays inside the original extent of its dimension. -/
def StateOk (shape : List Nat) (R : List Rng) : Prop :=
  R.length = shape.length ∧
    ∀ i, i < R.length →
      1 ≤ (R.getD i dRng).start ∧
      (R.getD i dRng).start ≤ (R.getD i dRng).stop ∧
      (R.getD i dRng).stop ≤ shape.getD i 0 ∧
      ((R.getD i dRng).start = 1 ∨ (R.getD i dRng).start = (R.getD i dRng).stop)

/-! ### Generic list toolkit -/

theorem getD_map_lt {α β : Type} (f : α → β) :
    ∀ (l : List α) (i : Nat) (d : α) (e : β), i < l.length →
      (l.map f).getD i e = f (l.getD i d) := by
  intro l
  induction l with
  | nil => intro i d e h; simp at h
  | cons a t ih =>
    intro i d e h
    cases i with
    | zero => simp
    | succ j =>
      simp only [List.map_cons, List.getD_cons_succ]
      exact ih j d e (by simpa using h)

theorem one_le_prod {l : List Nat} (h : ∀ i, i < l.length → 1 ≤ l.getD i 0) :
    1 ≤ l.prod := by
  induction l with
  | nil => simp
  | cons a t ih =>
    rw [List.prod_cons]
    have ha : 1 ≤ a := h 0 (by simp)
    have ht : 1 ≤ t.prod := ih (fun i hi => h (i + 1) (by simpa using hi))
    calc 1 = 1 * 1 := by ring
    _ ≤ a * t.prod := Nat.mul_le_mul ha ht

theorem prod_le_of_pointwise :
    ∀ (l1 l2 : List Nat), l1.length = l2.length →
      (∀ i, i < l1.length → l1.getD i 0 ≤ l2.getD i 0) → l1.prod ≤ l2.prod := by
  intro l1
  induction l1 with
  | nil =>
    intro l2 hlen _
    cases l2 with
    | nil => simp
    | cons b t => simp at hlen
  | cons a t ih =>
    intro l2 hlen hpt
    cases l2 with
    | nil => simp at hlen
    | cons b s =>
      simp only [List.prod_cons]
      have hab : a ≤ b := by simpa using hpt 0 (by simp)
      have hts : t.prod ≤ s.prod := by
        refine ih s (by simpa using hlen) ?_
        intro i hi
        simpa using hpt (i + 1) (by simpa using hi)
      exact Nat.mul_le_mul hab hts

theorem eq_of_pointwise_le_of_prod_le :
    ∀ (l1 l2 : List Nat), l1.length = l2.length →
      (∀ i, i < l1.length → l1.getD i 0 ≤ l2.getD i 0) →
      (∀ i, i < l1.length → 1 ≤ l1.getD i 0) →
      l2.prod ≤ l1.prod → l1 = l2 := by
  intro l1
  induction l1 with
  | nil =>
    intro l2 hlen _ _ _
    cases l2 with
    | nil => rfl
    | cons b t => simp at hlen
  | cons a t ih =>
    intro l2 hlen hpt hpos hprod
    cases l2 with
    | nil => simp at hlen
    | cons b s =>
      have hab : a ≤ b := by simpa using hpt 0 (by simp)
      have hts : t.prod ≤ s.prod := by
        refine prod_le_of_pointwise t s (by simpa using hlen) ?_
        intro i hi
        simpa using hpt (i + 1) (by simpa using hi)
      have ha1 : 1 ≤ a := hpos 0 (by simp)
      have ht1 : 1 ≤ t.prod :=
        one_le_prod (fun i hi => hpos (i + 1) (by simpa using hi))
      simp only [List.prod_cons] at hprod
      have hsle : s.prod ≤ t.prod := by
        by_contra hc
        push_neg at hc
        have : a * t.prod < b * s.prod := by nlinarith
        omega
      have hba : b ≤ a := by
        have hst : s.prod = t.prod := Nat.le_antisymm hsle hts
        rw [hst] at hprod
        exact Nat.le_of_mul_le_mul_right hprod ht1
      have hab2 : a = b := Nat.le_antisymm hab hba
      have hts2 : t = s := by
        refine ih s (by simpa using hlen) ?_ ?_ hsle
        · intro i hi
          simpa using hpt (i + 1) (by simpa using hi)
        · intro i hi
          simpa using hpos (i + 1) (by simpa using hi)
      rw [hab2, hts2]

theorem mul_prod_le_of_pointwise :
    ∀ (l1 l2 : List Nat) (j c : Nat), l1.length = l2.length → j < l1.length →
      (∀ i, i < l1.length → l1.getD i 0 ≤ l2.getD i 0) →
      c * l1.getD j 0 ≤ l2.getD j 0 → c * l1.prod ≤ l2.prod := by
  intro l1
  induction l1 with
  | nil => intro l2 j c _ hj _ _; simp at hj
  | cons a t ih =>
    intro l2 j c hlen hj hpt hcj
    cases l2 with
    | nil => simp at hlen
    | cons b s =>
      simp only [List.prod_cons]
      cases j with
      | zero =>
        simp only [List.getD_cons_zero] at hcj
        have hts : t.prod ≤ s.prod := by
          refine prod_le_of_pointwise t s (by simpa using hlen) ?_
          intro i hi
          simpa using hpt (i + 1) (by simpa using hi)
        calc c * (a * t.prod) = (c * a) * t.prod := by ring
        _ ≤ b * s.prod := Nat.mul_le_mul hcj hts
      | succ j0 =>
        simp only [List.getD_cons_succ] at hcj
        have hab : a ≤ b := by simpa using hpt 0 (by simp)
        have hts : c * t.prod ≤ s.prod := by
          refine ih s j0 c (by simpa using hlen) (by simpa using hj) ?_ hcj
          intro i hi
          simpa using hpt (i + 1) (by simpa using hi)
        calc c * (a * t.prod) = a * (c * t.prod) := by ring
        _ ≤ b * s.prod := Nat.mul_le_mul hab hts

theorem prod_le_mul_of_pointwise :
    ∀ (l1 l2 : List Nat) (j c : Nat), l1.length = l2.length → j < l1.length →
      (∀ i, i < l1.length → i ≠ j → l2.getD i 0 ≤ l1.getD i 0) →
      l2.getD j 0 ≤ c * l1.getD j 0 → l2.prod ≤ c * l1.prod := by
  intro l1
  induction l1 with
  | nil => intro l2 j c _ hj _ _; simp at hj
  | cons a t ih =>
    intro l2 j c hlen hj hpt hcj
    cases l2 with
    | nil => simp at hlen
    | cons b s =>
      simp only [List.prod_cons]
      cases j with
      | zero =>
        simp only [List.getD_cons_zero] at hcj
        have hts : s.prod ≤ t.prod := by
          refine prod_le_of_pointwise s t (by simpa using hlen.symm) ?_
          intro i hi
          have := hpt (i + 1) (by
            simp only [List.length_cons] at hlen ⊢
            omega) (by omega)
          simpa using this
        calc b * s.prod ≤ (c * a) * t.prod := Nat.mul_le_mul hcj hts
        _ = c * (a * t.prod) := by ring
      | succ j0 =>
        simp only [List.getD_cons_succ] at hcj
        have hab : b ≤ a := by simpa using hpt 0 (by simp) (by simp)
        have hts : s.prod ≤ c * t.prod := by
          refine ih s j0 c (by simpa using hlen) (by simpa using hj) ?_ hcj
          intro i hi hij
          simpa using hpt (i + 1) (by simpa using hi) (by omega)
        calc b * s.prod ≤ a * (c * t.prod) := Nat.mul_le_mul hab hts
        _ = c * (a * t.prod) := by ring

theorem prod_lt_of_pointwise :
    ∀ (l1 l2 : List Nat) (j : Nat), l1.length = l2.length → j < l1.length →
      (∀ i, i < l1.length → l1.getD i 0 ≤ l2.getD i 0) →
      (∀ i, i < l1.length → 1 ≤ l1.getD i 0) →
      l1.getD j 0 < l2.getD j 0 → l1.prod < l2.prod := by
  intro l1
  induction l1 with
  | nil => intro l2 j _ hj _ _ _; simp at hj
  | cons a t ih =>
    intro l2 j hlen hj hpt hpos hlt
    cases l2 with
    | nil => simp at hlen
    | cons b s =>
      simp only [List.prod_cons]
      have hts : t.prod ≤ s.prod := by
        refine prod_le_of_pointwise t s (by simpa using hlen) ?_
        intro i hi
        simpa using hpt (i + 1) (by simpa using hi)
      have ht1 : 1 ≤ t.prod :=
        one_le_prod (fun i hi => hpos (i + 1) (by simpa using hi))
      cases j with
      | zero =>
        simp only [List.getD_cons_zero] at hlt
        have : a * t.prod < b * s.prod := by nlinarith
        exact this
      | succ j0 =>
        simp only [List.getD_cons_succ] at hlt
        have hab : a ≤ b := by simpa using hpt 0 (by simp)
        have ha1 : 1 ≤ a := hpos 0 (by simp)
        have hts2 : t.prod < s.prod := by
          refine ih s j0 (by simpa using hlen) (by simpa using hj) ?_ ?_ hlt
          · intro i hi
            simpa using hpt (i + 1) (by simpa using hi)
          · intro i hi
            simpa using hpos (i + 1) (by simpa using hi)
        have : a * t.prod < b * s.prod := by nlinarith
        exact this

/-! ### Specification of `argminVal` (`np.nanargmin`) -/

theorem argminVal_none_aux :
    ∀ (l : List (Option Int)), argminVal l = none →
      ∀ (j : Nat), j < l.length → l.getD j none = none := by
  intro l
  induction l with
  | nil => intro _ j hj; simp at hj
  | cons a rest ih =>
    intro h j hj
    cases a with
    | none =>
      cases hrec : argminVal rest with
      | none =>
        cases j with
        | zero => simp
        | succ j1 => exact ih hrec j1 (by simpa using hj)
      | some p =>
        simp only [argminVal, hrec] at h
        simp at h
    | some x =>
      exfalso
      cases hrec : argminVal rest with
      | none =>
        simp only [argminVal, hrec] at h
        simp at h
      | some p =>
        obtain ⟨j0, w0⟩ := p
        simp only [argminVal, hrec] at h
        by_cases hwx : w0 < x
        · rw [if_pos hwx] at h; simp at h
        · rw [if_neg hwx] at h; simp at h

theorem argminVal_mem :
    ∀ (l : List (Option Int)) (i : Nat) (v : Int), argminVal l = some (i, v) →
      i < l.length ∧ l.getD i none = some v := by
  intro l
  induction l with
  | nil => intro i v h; simp [argminVal] at h
  | cons a rest ih =>
    intro i v h
    cases a with
    | none =>
      cases hrec : argminVal rest with
      | none =>
        simp only [argminVal, hrec] at h
        simp at h
      | some p =>
        obtain ⟨j, w⟩ := p
        simp only [argminVal, hrec] at h
        simp only [Option.map, Option.some_inj, Prod.mk.injEq] at h
        obtain ⟨hi, hv⟩ := h
        obtain ⟨hlt, hget⟩ := ih j w hrec
        subst hi
        subst hv
        exact ⟨by simpa using Nat.succ_lt_succ hlt, by simpa using hget⟩
    | some x =>
      cases hrec : argminVal rest with
      | none =>
        simp only [argminVal, hrec, Option.some_inj, Prod.mk.injEq] at h
        obtain ⟨hi, hv⟩ := h
        subst hi
        subst hv
        simp
      | some p =>
        obtain ⟨j, w⟩ := p
        simp only [argminVal, hrec] at h
        by_cases hwx : w < x
        · rw [if_pos hwx] at h
          simp only [Option.some_inj, Prod.mk.injEq] at h
          obtain ⟨hi, hv⟩ := h
          obtain ⟨hlt, hget⟩ := ih j w hrec
          subst hi
          subst hv
          exact ⟨by simpa using Nat.succ_lt_succ hlt, by simpa using hget⟩
        · rw [if_neg hwx] at h
          simp only [Option.some_inj, Prod.mk.injEq] at h
          obtain ⟨hi, hv⟩ := h
          subst hi
          subst hv
          simp
theorem argminVal_le :
    ∀ (l : List (Option Int)) (i : Nat) (v : Int), argminVal l = some (i, v) →
      ∀ (j : Nat) (w : Int), j < l.length → l.getD j none = some w → v ≤ w := by
  intro l
  induction l with
  | nil => intro i v h; simp [argminVal] at h
  | cons a rest ih =>
    intro i v h j w hj hget
    cases a with
    | none =>
      cases hrec : argminVal rest with
      | none =>
        simp only [argminVal, hrec] at h
        simp at h
      | some p =>
        obtain ⟨j0, w0⟩ := p
        simp only [argminVal, hrec] at h
        simp only [Option.map, Option.some_inj, Prod.mk.injEq] at h
        obtain ⟨_, hv⟩ := h
        subst hv
        cases j with
        | zero => simp at hget
        | succ j1 => exact ih j0 w0 hrec j1 w (by simpa using hj) (by simpa using hget)
    | some x =>
      cases hrec : argminVal rest with
      | none =>
        simp only [argminVal, hrec, Option.some_inj, Prod.mk.injEq] at h
        obtain ⟨hi, hv⟩ := h
        subst hv
        cases j with
        | zero =>
          simp only [List.getD_cons_zero, Option.some_inj] at hget
          exact le_of_eq hget
        | succ j1 =>
          exfalso
          have hnone := argminVal_none_aux rest hrec j1 (by simpa using hj)
          simp only [List.getD_cons_succ] at hget
          rw [hnone] at hget
          simp at hget
      | some p =>
        obtain ⟨j0, w0⟩ := p
        simp only [argminVal, hrec] at h
        by_cases hwx : w0 < x
        · rw [if_pos hwx] at h
          simp only [Option.some_inj, Prod.mk.injEq] at h
          obtain ⟨_, hv⟩ := h
          subst hv
          cases j with
          | zero =>
            simp only [List.getD_cons_zero, Option.some_inj] at hget
            subst hget
            exact le_of_lt hwx
          | succ j1 => exact ih j0 w0 hrec j1 w (by simpa using hj) (by simpa using hget)
        · rw [if_neg hwx] at h
          simp only [Option.some_inj, Prod.mk.injEq] at h
          obtain ⟨_, hv⟩ := h
          subst hv
          push_neg at hwx
          cases j with
          | zero =>
            simp only [List.getD_cons_zero, Option.some_inj] at hget
            exact le_of_eq hget
          | succ j1 =>
            exact le_trans hwx (ih j0 w0 hrec j1 w (by simpa using hj) (by simpa using hget))

theorem argminVal_first :
    ∀ (l : List (Option Int)) (i : Nat) (v : Int), argminVal l = some (i, v) →
      ∀ (j : Nat) (w : Int), j < i → l.getD j none = some w → v < w := by
  intro l
  induction l with
  | nil => intro i v h; simp [argminVal] at h
  | cons a rest ih =>
    intro i v h j w hj hget
    cases a with
    | none =>
      cases hrec : argminVal rest with
      | none =>
        simp only [argminVal, hrec] at h
        simp at h
      | some p =>
        obtain ⟨j0, w0⟩ := p
        simp only [argminVal, hrec] at h
        simp only [Option.map, Option.some_inj, Prod.mk.injEq] at h
        obtain ⟨hi, hv⟩ := h
        subst hv
        cases j with
        | zero => simp at hget
        | succ j1 =>
          refine ih j0 w0 hrec j1 w ?_ (by simpa using hget)
          omega
    | some x =>
      cases hrec : argminVal rest with
      | none =>
        simp only [argminVal, hrec, Option.some_inj, Prod.mk.injEq] at h
        obtain ⟨hi, hv⟩ := h
        omega
      | some p =>
        obtain ⟨j0, w0⟩ := p
        simp only [argminVal, hrec] at h
        by_cases hwx : w0 < x
        · rw [if_pos hwx] at h
          simp only [Option.some_inj, Prod.mk.injEq] at h
          obtain ⟨hi, hv⟩ := h
          subst hv
          cases j with
          | zero =>
            simp only [List.getD_cons_zero, Option.some_inj] at hget
            subst hget
            exact hwx
          | succ j1 =>
            refine ih j0 w0 hrec j1 w ?_ (by simpa using hget)
            omega
        · rw [if_neg hwx] at h
          simp only [Option.some_inj, Prod.mk.injEq] at h
          obtain ⟨hi, hv⟩ := h
          omega

theorem argminVal_isSome :
    ∀ (l : List (Option Int)) (j : Nat) (w : Int), j < l.length →
      l.getD j none = some w → ∃ p, argminVal l = some p := by
  intro l j w hj hget
  cases hres : argminVal l with
  | none =>
    exfalso
    have := argminVal_none_aux l hres j hj
    rw [this] at hget
    simp at hget
  | some p => exact ⟨p, rfl⟩

/-! ### Lemmas about the elementary constructs -/

theorem getD_zipWith_lt {α β γ : Type} (f : α → β → γ) :
    ∀ (l1 : List α) (l2 : List β) (i : Nat) (d1 : α) (d2 : β) (e : γ),
      i < l1.length → i < l2.length →
      (List.zipWith f l1 l2).getD i e = f (l1.getD i d1) (l2.getD i d2) := by
  intro l1
  induction l1 with
  | nil => intro l2 i d1 d2 e h1 _; simp at h1
  | cons a t ih =>
    intro l2 i d1 d2 e h1 h2
    cases l2 with
    | nil => simp at h2
    | cons b s =>
      cases i with
      | zero => simp
      | succ j =>
        simp only [List.zipWith_cons_cons, List.getD_cons_succ]
        exact ih s j d1 d2 e (by simpa using h1) (by simpa using h2)

theorem getD_mem_self :
    ∀ {α : Type} (l : List α) (i : Nat) (d : α), i < l.length → l.getD i d ∈ l := by
  intro α l
  induction l with
  | nil => intro i d h; simp at h
  | cons a t ih =>
    intro i d h
    cases i with
    | zero => simp
    | succ j =>
      simp only [List.getD_cons_succ]
      exact List.mem_cons_of_mem a (ih j d (by simpa using h))

theorem getD_range_lt : ∀ (n j : Nat), j < n → (List.range n).getD j 0 = j := by
  intro n j hj
  rw [List.getD_eq_getElem?_getD, List.getElem?_range hj]
  rfl

theorem mem_of_getD {α : Type} (l : List α) (i : Nat) (d : α) (h : i < l.length) :
    l.getD i d ∈ l := getD_mem_self l i d h

theorem exists_getD_of_mem :
    ∀ {α : Type} (l : List α) (a : α) (d : α), a ∈ l →
      ∃ i, i < l.length ∧ l.getD i d = a := by
  intro α l
  induction l with
  | nil => intro a d h; simp at h
  | cons x t ih =>
    intro a d h
    rcases List.mem_cons.mp h with h1 | h2
    · exact ⟨0, by simp, by simpa using h1.symm⟩
    · obtain ⟨i, hi, hg⟩ := ih a d h2
      exact ⟨i + 1, by simpa using Nat.succ_lt_succ hi, by simpa using hg⟩

theorem clip_le_stop (x lo hi : Nat) : clip x lo hi ≤ hi := by
  simp [clip]

theorem start_le_clip (x lo hi : Nat) (h : lo ≤ hi) : lo ≤ clip x lo hi := by
  simp only [clip]
  omega

theorem clip_mono (x y lo hi : Nat) (h : x ≤ y) : clip x lo hi ≤ clip y lo hi := by
  simp only [clip]
  omega

theorem clip_of_between (x lo hi : Nat) (h1 : lo ≤ x) (h2 : x ≤ hi) :
    clip x lo hi = x := by
  simp only [clip]
  omega

theorem clip_succ_eq (k lo hi : Nat) (hle : lo ≤ hi) (hgood : lo = 1 ∨ lo = hi)
    (hk : 1 ≤ k) : min (clip k lo hi + 1) hi = clip (k + 1) lo hi := by
  simp only [clip]
  omega

theorem base_le_foldl_max : ∀ (l : List Nat) (b : Nat), b ≤ l.foldl max b := by
  intro l
  induction l with
  | nil => intro b; simp
  | cons a t ih =>
    intro b
    calc b ≤ max b a := le_max_left _ _
    _ ≤ t.foldl max (max b a) := ih _

theorem le_foldl_max : ∀ (l : List Nat) (b x : Nat), x ∈ l → x ≤ l.foldl max b := by
  intro l
  induction l with
  | nil => intro b x h; simp at h
  | cons a t ih =>
    intro b x h
    rcases List.mem_cons.mp h with h1 | h2
    · subst h1
      calc x ≤ max b x := le_max_right _ _
      _ ≤ t.foldl max (max b x) := base_le_foldl_max t _
    · exact ih (max b a) x h2

theorem length_row (R : List Rng) (k : Nat) : (row R k).length = R.length := by
  simp [row]

theorem getD_row (R : List Rng) (k i : Nat) (h : i < R.length) :
    (row R k).getD i 0 = clip k (R.getD i dRng).start (R.getD i dRng).stop := by
  simpa [row] using getD_map_lt (fun r => clip k r.start r.stop) R i dRng 0 h

theorem length_rowsA (R : List Rng) : (rowsA R).length = maxStop R := by
  simp [rowsA]

theorem getD_rowsA (R : List Rng) (j : Nat) (h : j < maxStop R) :
    (rowsA R).getD j [] = row R (j + 1) := by
  have := getD_map_lt (fun j => row R (j + 1)) (List.range (maxStop R)) j 0 []
    (by simpa using h)
  rw [rowsA, this, getD_range_lt _ _ h]

theorem length_startsOf (R : List Rng) : (startsOf R).length = R.length := by
  simp [startsOf]

theorem getD_startsOf (R : List Rng) (i : Nat) (h : i < R.length) :
    (startsOf R).getD i 0 = (R.getD i dRng).start := by
  simpa [startsOf] using getD_map_lt Rng.start R i dRng 0 h

theorem length_stopsOf (R : List Rng) : (stopsOf R).length = R.length := by
  simp [stopsOf]

theorem getD_stopsOf (R : List Rng) (i : Nat) (h : i < R.length) :
    (stopsOf R).getD i 0 = (R.getD i dRng).stop := by
  simpa [stopsOf] using getD_map_lt Rng.stop R i dRng 0 h

theorem stop_le_maxStop (R : List Rng) (i : Nat) (h : i < R.length) :
    (R.getD i dRng).stop ≤ maxStop R := by
  refine le_foldl_max _ 0 _ ?_
  rw [← getD_stopsOf R i h]
  exact getD_mem_self _ i 0 (by simpa [length_stopsOf] using h)

theorem zerone_length : ∀ (n : Nat) (z : List Nat), z ∈ zerone n → z.length = n := by
  intro n
  induction n with
  | zero => intro z h; simp [zerone] at h; simp [h]
  | succ m ih =>
    intro z h
    simp only [zerone, List.mem_append, List.mem_map] at h
    rcases h with ⟨w, hw, hz⟩ | ⟨w, hw, hz⟩ <;>
      · subst hz
        simp [ih w hw]

theorem zerone_le_one :
    ∀ (n : Nat) (z : List Nat), z ∈ zerone n → ∀ x ∈ z, x ≤ 1 := by
  intro n
  induction n with
  | zero => intro z h; simp [zerone] at h; simp [h]
  | succ m ih =>
    intro z h x hx
    simp only [zerone, List.mem_append, List.mem_map] at h
    rcases h with ⟨w, hw, hz⟩ | ⟨w, hw, hz⟩ <;>
      · subst hz
        rcases List.mem_cons.mp hx with h1 | h2
        · omega
        · exact ih w hw x h2

theorem mem_zerone :
    ∀ (n : Nat) (z : List Nat), z.length = n → (∀ x ∈ z, x ≤ 1) → z ∈ zerone n := by
  intro n
  induction n with
  | zero =>
    intro z hlen _
    rw [List.length_eq_zero] at hlen
    simp [zerone, hlen]
  | succ m ih =>
    intro z hlen hle
    cases z with
    | nil => simp at hlen
    | cons x t =>
      have hx : x ≤ 1 := hle x (by simp)
      have ht : t ∈ zerone m :=
        ih t (by simpa using hlen) (fun y hy => hle y (List.mem_cons_of_mem x hy))
      simp only [zerone, List.mem_append, List.mem_map]
      interval_cases x
      · exact Or.inr ⟨t, ht, rfl⟩
      · exact Or.inl ⟨t, ht, rfl⟩

theorem zerone_ne_nil : ∀ (n : Nat), zerone n ≠ [] := by
  intro n
  induction n with
  | zero => simp [zerone]
  | succ m ih =>
    simp only [zerone, ne_eq, List.append_eq_nil, List.map_eq_nil_iff]
    intro h
    exact ih h.1

theorem replicate_mem_zerone (n c : Nat) (hc : c ≤ 1) :
    List.replicate n c ∈ zerone n := by
  refine mem_zerone n _ (by simp) ?_
  intro x hx
  rw [List.eq_of_mem_replicate hx]
  exact hc

theorem length_addClip (R : List Rng) (a z : List Nat)
    (ha : a.length = R.length) (hz : z.length = R.length) :
    (addClip R a z).length = R.length := by
  simp [addClip, ha, hz]

theorem getD_addClip (R : List Rng) (a z : List Nat) (i : Nat)
    (ha : a.length = R.length) (hz : z.length = R.length) (h : i < R.length) :
    (addClip R a z).getD i 0 =
      clip (a.getD i 0 + z.getD i 0) (R.getD i dRng).start (R.getD i dRng).stop := by
  rw [addClip]
  rw [getD_zipWith_lt (fun s r => clip s r.start r.stop) _ R i 0 dRng 0
    (by simp [ha, hz]; omega) h]
  rw [getD_zipWith_lt (· + ·) a z i 0 0 0 (by omega) (by omega)]

theorem length_trialAux (axes : List Nat) :
    ∀ (R : List Rng) (i : Nat), (trialAux axes i R).length = R.length := by
  intro R
  induction R with
  | nil => intro i; simp [trialAux]
  | cons r t ih => intro i; simp [trialAux, ih]

theorem length_trialRngs (R : List Rng) (axes : List Nat) :
    (trialRngs R axes).length = R.length := length_trialAux axes R 0

theorem getD_trialAux (axes : List Nat) :
    ∀ (R : List Rng) (i j : Nat), j < R.length →
      (trialAux axes i R).getD j dRng =
        if (i + j) ∈ axes then R.getD j dRng
        else ⟨(R.getD j dRng).start, (R.getD j dRng).start⟩ := by
  intro R
  induction R with
  | nil => intro i j h; simp at h
  | cons r t ih =>
    intro i j h
    cases j with
    | zero => simp [trialAux]
    | succ j0 =>
      simp only [trialAux, List.getD_cons_succ]
      rw [ih (i + 1) j0 (by simpa using h)]
      have : i + 1 + j0 = i + (j0 + 1) := by omega
      rw [this]

theorem getD_trialRngs (R : List Rng) (axes : List Nat) (j : Nat) (h : j < R.length) :
    (trialRngs R axes).getD j dRng =
      if j ∈ axes then R.getD j dRng
      else ⟨(R.getD j dRng).start, (R.getD j dRng).start⟩ := by
  simpa using getD_trialAux axes R 0 j h

theorem length_pinAux (axes : List Nat) (c : List Nat) :
    ∀ (R : List Rng) (i : Nat), (pinAux axes c i R).length = R.length := by
  intro R
  induction R with
  | nil => intro i; simp [pinAux]
  | cons r t ih => intro i; simp [pinAux, ih]

theorem length_pinRngs (R : List Rng) (axes : List Nat) (c : List Nat) :
    (pinRngs R axes c).length = R.length := length_pinAux axes c R 0

theorem getD_pinAux (axes : List Nat) (c : List Nat) :
    ∀ (R : List Rng) (i j : Nat), j < R.length →
      (pinAux axes c i R).getD j dRng =
        if (i + j) ∈ axes then ⟨c.getD (i + j) 0, c.getD (i + j) 0⟩
        else R.getD j dRng := by
  intro R
  induction R with
  | nil => intro i j h; simp at h
  | cons r t ih =>
    intro i j h
    cases j with
    | zero => simp [pinAux]
    | succ j0 =>
      simp only [pinAux, List.getD_cons_succ]
      rw [ih (i + 1) j0 (by simpa using h)]
      have : i + 1 + j0 = i + (j0 + 1) := by omega
      rw [this]

theorem getD_pinRngs (R : List Rng) (axes : List Nat) (c : List Nat) (j : Nat)
    (h : j < R.length) :
    (pinRngs R axes c).getD j dRng =
      if j ∈ axes then ⟨c.getD j 0, c.getD j 0⟩ else R.getD j dRng := by
  simpa using getD_pinAux axes c R 0 j h

theorem length_initRngs (shape : List Nat) : (initRngs shape).length = shape.length := by
  simp [initRngs]

theorem getD_initRngs (shape : List Nat) (i : Nat) (h : i < shape.length) :
    (initRngs shape).getD i dRng = ⟨1, shape.getD i 0⟩ := by
  simpa [initRngs] using getD_map_lt (fun s => (⟨1, s⟩ : Rng)) shape i 0 dRng h

/-! ### Specification of `pickIdx` and inversion of `ranges2product` -/

theorem dOpt_some (B : Int) (p : Nat) (v : Int) (h : dOpt B p = some v) :
    (p : Int) ≤ B ∧ v = B - p := by
  by_cases hc : (p : Int) ≤ B
  · rw [dOpt, if_pos hc] at h
    exact ⟨hc, by injection h with h0; exact h0.symm⟩
  · rw [dOpt, if_neg hc] at h
    simp at h

theorem dOpt_of_le (B : Int) (p : Nat) (h : (p : Int) ≤ B) :
    dOpt B p = some (B - p) := by
  rw [dOpt, if_pos h]

theorem pickIdx_spec (B : Int) (rs : List (List Nat)) (i : Nat) (v : Int)
    (h : pickIdx B rs = some (i, v)) :
    i < rs.length ∧ (((rs.getD i []).prod : Int) ≤ B) ∧
      (∀ j, j < rs.length → ((rs.getD j []).prod : Int) ≤ B →
        (rs.getD j []).prod ≤ (rs.getD i []).prod) ∧
      (∀ j, j < i → ((rs.getD j []).prod : Int) ≤ B →
        (rs.getD j []).prod < (rs.getD i []).prod) := by
  have hmem := argminVal_mem _ i v h
  have hlen : (rs.map (fun r => dOpt B r.prod)).length = rs.length := by simp
  have hi : i < rs.length := by rw [← hlen]; exact hmem.1
  have hgeti : (rs.map (fun r => dOpt B r.prod)).getD i none = dOpt B (rs.getD i []).prod :=
    getD_map_lt _ rs i [] none hi
  have hvi : dOpt B (rs.getD i []).prod = some v := by rw [← hgeti]; exact hmem.2
  obtain ⟨hple, hveq⟩ := dOpt_some _ _ _ hvi
  refine ⟨hi, hple, ?_, ?_⟩
  · intro j hj hjle
    have hgetj : (rs.map (fun r => dOpt B r.prod)).getD j none =
        dOpt B (rs.getD j []).prod := getD_map_lt _ rs j [] none hj
    have := argminVal_le _ i v h j (B - (rs.getD j []).prod)
      (by rw [hlen]; exact hj) (by rw [hgetj]; exact dOpt_of_le _ _ hjle)
    omega
  · intro j hj hjle
    have hjlen : j < rs.length := lt_trans hj hi
    have hgetj : (rs.map (fun r => dOpt B r.prod)).getD j none =
        dOpt B (rs.getD j []).prod := getD_map_lt _ rs j [] none hjlen
    have := argminVal_first _ i v h j (B - (rs.getD j []).prod) hj
      (by rw [hgetj]; exact dOpt_of_le _ _ hjle)
    omega

theorem pickIdx_isSome (B : Int) (rs : List (List Nat)) (j : Nat)
    (hj : j < rs.length) (hle : ((rs.getD j []).prod : Int) ≤ B) :
    ∃ p, pickIdx B rs = some p := by
  refine argminVal_isSome _ j (B - (rs.getD j []).prod) (by simpa using hj) ?_
  rw [getD_map_lt _ rs j [] none hj]
  exact dOpt_of_le _ _ hle

theorem r2p_ok_elim (R : List Rng) (B : Int) (o : List Nat)
    (h : ranges2product R B = .ok o) :
    R ≠ [] ∧ (((startsOf R).prod : Int) ≤ B) ∧
      ∃ i v j w, pickIdx B (rowsA R) = some (i, v) ∧
        pickIdx B (sortedB R ((rowsA R).getD i [])) = some (j, w) ∧
        o = (sortedB R ((rowsA R).getD i [])).getD j [] := by
  rw [ranges2product] at h
  by_cases he : R.isEmpty
  · rw [if_pos he] at h
    exact absurd h (by simp)
  · rw [if_neg he] at h
    by_cases hb : B < ((startsOf R).prod : Int)
    · rw [if_pos hb] at h
      exact absurd h (by simp)
    · rw [if_neg hb] at h
      refine ⟨by simpa [List.isEmpty_iff] using he, by omega, ?_⟩
      split at h
      · exact absurd h (by simp)
      next p h1 =>
        split at h
        · exact absurd h (by simp)
        next q h2 =>
          refine ⟨p.1, p.2, q.1, q.2, ?_, ?_, ?_⟩
          · rw [h1]
          · rw [h2]
          · injection h with h0
            exact h0.symm

theorem sortedB_perm (R : List Rng) (a : List Nat) :
    (sortedB R a).Perm (rowsB R a) :=
  List.perm_insertionSort _ _

theorem r2p_ok_struct (R : List Rng) (B : Int) (o : List Nat)
    (h : ranges2product R B = .ok o) :
    ∃ i v, pickIdx B (rowsA R) = some (i, v) ∧ i < maxStop R ∧
      ∃ z, z ∈ zerone R.length ∧ o = addClip R ((rowsA R).getD i []) z ∧
        ((o.prod : Int) ≤ B) ∧
        (∀ s, s ∈ rowsB R ((rowsA R).getD i []) → ((s.prod : Int) ≤ B →
          s.prod ≤ o.prod)) := by
  obtain ⟨hne, hfeas, i, v, j, w, h1, h2, ho⟩ := r2p_ok_elim R B o h
  have hAspec := pickIdx_spec B (rowsA R) i v h1
  have hBspec := pickIdx_spec B (sortedB R ((rowsA R).getD i [])) j w h2
  have hiA : i < maxStop R := by
    have := hAspec.1
    rwa [length_rowsA] at this
  have hoMem : o ∈ sortedB R ((rowsA R).getD i []) := by
    rw [ho]
    exact getD_mem_self _ j [] hBspec.1
  have hoMemB : o ∈ rowsB R ((rowsA R).getD i []) :=
    (sortedB_perm R _).mem_iff.mp hoMem
  obtain ⟨z, hz, hzeq⟩ := List.mem_map.mp
    (show o ∈ (zerone R.length).map (fun z => addClip R ((rowsA R).getD i []) z)
      from hoMemB)
  refine ⟨i, v, h1, hiA, z, hz, hzeq.symm, ?_, ?_⟩
  · rw [ho]
    exact hBspec.2.1
  · intro s hs hsle
    have hsMem : s ∈ sortedB R ((rowsA R).getD i []) :=
      (sortedB_perm R _).mem_iff.mpr hs
    obtain ⟨idx, hidx, hgets⟩ := exists_getD_of_mem _ s [] hsMem
    have := hBspec.2.2.1 idx hidx (by rw [hgets]; exact hsle)
    rw [hgets] at this
    rw [ho]
    exact this

theorem r2p_ok_phaseA_max (R : List Rng) (B : Int) (i : Nat) (v : Int)
    (h : pickIdx B (rowsA R) = some (i, v)) (k : Nat) (hk1 : 1 ≤ k)
    (hk2 : k ≤ maxStop R) (hadm : ((row R k).prod : Int) ≤ B) :
    (row R k).prod ≤ ((rowsA R).getD i []).prod := by
  have hspec := pickIdx_spec B (rowsA R) i v h
  have hklt : k - 1 < (rowsA R).length := by
    rw [length_rowsA]; omega
  have hget : (rowsA R).getD (k - 1) [] = row R k := by
    rw [getD_rowsA R (k - 1) (by omega)]
    congr 1
    omega
  have := hspec.2.2.1 (k - 1) hklt (by rw [hget]; exact hadm)
  rwa [hget] at this

/-! ### Pointwise facts about rows and solver outputs -/

theorem list_eq_of_getD :
    ∀ (l1 l2 : List Nat), l1.length = l2.length →
      (∀ i, i < l1.length → l1.getD i 0 = l2.getD i 0) → l1 = l2 := by
  intro l1
  induction l1 with
  | nil =>
    intro l2 hlen _
    cases l2 with
    | nil => rfl
    | cons b t => simp at hlen
  | cons a t ih =>
    intro l2 hlen hpt
    cases l2 with
    | nil => simp at hlen
    | cons b s =>
      have h0 : a = b := by simpa using hpt 0 (by simp)
      have ht : t = s := by
        refine ih s (by simpa using hlen) ?_
        intro i hi
        simpa using hpt (i + 1) (by simpa using hi)
      rw [h0, ht]

theorem row_between (R : List Rng) (k : Nat) (hg : ∀ r ∈ R, r.start ≤ r.stop)
    (i : Nat) (h : i < R.length) :
    (R.getD i dRng).start ≤ (row R k).getD i 0 ∧
      (row R k).getD i 0 ≤ (R.getD i dRng).stop := by
  rw [getD_row R k i h]
  have hmem := hg _ (getD_mem_self R i dRng h)
  exact ⟨start_le_clip _ _ _ hmem, clip_le_stop _ _ _⟩

theorem row_prod_mono (R : List Rng) (k k' : Nat) (h : k ≤ k') :
    (row R k).prod ≤ (row R k').prod := by
  refine prod_le_of_pointwise _ _ (by rw [length_row, length_row]) ?_
  intro i hi
  rw [length_row] at hi
  rw [getD_row R k i hi, getD_row R k' i hi]
  exact clip_mono _ _ _ _ h

theorem row_one_eq_starts (R : List Rng)
    (hg : ∀ r ∈ R, 1 ≤ r.start ∧ r.start ≤ r.stop) :
    row R 1 = startsOf R := by
  refine list_eq_of_getD _ _ (by rw [length_row, length_startsOf]) ?_
  intro i hi
  rw [length_row] at hi
  rw [getD_row R 1 i hi, getD_startsOf R i hi]
  have hmem := hg _ (getD_mem_self R i dRng hi)
  simp only [clip]
  omega

theorem row_maxStop_eq_stops (R : List Rng) (hg : ∀ r ∈ R, r.start ≤ r.stop) :
    row R (maxStop R) = stopsOf R := by
  refine list_eq_of_getD _ _ (by rw [length_row, length_stopsOf]) ?_
  intro i hi
  rw [length_row] at hi
  rw [getD_row R (maxStop R) i hi, getD_stopsOf R i hi]
  have hmem := hg _ (getD_mem_self R i dRng hi)
  have hms := stop_le_maxStop R i hi
  simp only [clip]
  omega

theorem one_le_maxStop (R : List Rng) (hne : R ≠ [])
    (hg : ∀ r ∈ R, 1 ≤ r.start ∧ r.start ≤ r.stop) : 1 ≤ maxStop R := by
  cases R with
  | nil => exact absurd rfl hne
  | cons r t =>
    have hmem := hg r (by simp)
    have := stop_le_maxStop (r :: t) 0 (by simp)
    simp only [List.getD_cons_zero] at this
    omega

theorem r2p_ok_len (R : List Rng) (B : Int) (o : List Nat)
    (h : ranges2product R B = .ok o) : o.length = R.length := by
  obtain ⟨i, v, h1, hiA, z, hz, hzeq, _, _⟩ := r2p_ok_struct R B o h
  have ha : (rowsA R).getD i [] = row R (i + 1) := getD_rowsA R i hiA
  rw [hzeq, ha]
  exact length_addClip R _ z (length_row R _) (zerone_length _ z hz)

theorem r2p_ok_bounds (R : List Rng) (B : Int) (o : List Nat)
    (hg : ∀ r ∈ R, r.start ≤ r.stop) (h : ranges2product R B = .ok o)
    (i : Nat) (hi : i < R.length) :
    (R.getD i dRng).start ≤ o.getD i 0 ∧ o.getD i 0 ≤ (R.getD i dRng).stop := by
  obtain ⟨i0, v, h1, hiA, z, hz, hzeq, _, _⟩ := r2p_ok_struct R B o h
  have ha : (rowsA R).getD i0 [] = row R (i0 + 1) := getD_rowsA R i0 hiA
  rw [hzeq, ha]
  rw [getD_addClip R _ z i (length_row R _) (zerone_length _ z hz) hi]
  have hmem := hg _ (getD_mem_self R i dRng hi)
  exact ⟨start_le_clip _ _ _ hmem, clip_le_stop _ _ _⟩

theorem r2p_ok_budget (R : List Rng) (B : Int) (o : List Nat)
    (h : ranges2product R B = .ok o) : (o.prod : Int) ≤ B := by
  obtain ⟨i, v, h1, hiA, z, hz, hzeq, hle, _⟩ := r2p_ok_struct R B o h
  exact hle

theorem r2p_ok_feasible (R : List Rng) (B : Int) (o : List Nat)
    (h : ranges2product R B = .ok o) : ((startsOf R).prod : Int) ≤ B :=
  (r2p_ok_elim R B o h).2.1

theorem r2p_ok_ne_nil (R : List Rng) (B : Int) (o : List Nat)
    (h : ranges2product R B = .ok o) : R ≠ [] :=
  (r2p_ok_elim R B o h).1

theorem addClip_ge_base (R : List Rng) (k : Nat) (z : List Nat)
    (hg : ∀ r ∈ R, r.start ≤ r.stop) (hz : z.length = R.length)
    (i : Nat) (hi : i < R.length) :
    (row R k).getD i 0 ≤ (addClip R (row R k) z).getD i 0 := by
  rw [getD_addClip R _ z i (length_row R _) hz hi]
  obtain ⟨hlo, hhi⟩ := row_between R k hg i hi
  simp only [clip]
  omega

theorem addClip_le_succ (R : List Rng) (k : Nat) (z : List Nat)
    (hg : ∀ r ∈ R, r.start ≤ r.stop) (hz : z.length = R.length)
    (hz1 : ∀ x ∈ z, x ≤ 1) (i : Nat) (hi : i < R.length) :
    (addClip R (row R k) z).getD i 0 ≤
      min ((row R k).getD i 0 + 1) (R.getD i dRng).stop := by
  rw [getD_addClip R _ z i (length_row R _) hz hi]
  obtain ⟨hlo, hhi⟩ := row_between R k hg i hi
  have hzi : z.getD i 0 ≤ 1 := by
    by_cases hiz : i < z.length
    · exact hz1 _ (getD_mem_self z i 0 hiz)
    · rw [List.getD_eq_default]
      · omega
      · omega
  simp only [clip]
  omega

theorem addClip_zero_eq (R : List Rng) (k : Nat)
    (hg : ∀ r ∈ R, r.start ≤ r.stop) :
    addClip R (row R k) (List.replicate R.length 0) = row R k := by
  refine list_eq_of_getD _ _ ?_ ?_
  · rw [length_addClip R _ _ (length_row R _) (by simp), length_row]
  · intro i hi
    rw [length_addClip R _ _ (length_row R _) (by simp)] at hi
    rw [getD_addClip R _ _ i (length_row R _) (by simp) hi]
    obtain ⟨hlo, hhi⟩ := row_between R k hg i hi
    have : (List.replicate R.length 0).getD i 0 = 0 := by
      rw [List.getD_eq_getElem?_getD]
      simp [hi]
    rw [this]
    simp only [clip]
    omega

theorem r2p_isOk (R : List Rng) (B : Int) (hne : R ≠ [])
    (hg : ∀ r ∈ R, 1 ≤ r.start ∧ r.start ≤ r.stop)
    (hfeas : ((startsOf R).prod : Int) ≤ B) :
    ∃ o, ranges2product R B = .ok o := by
  have hge : ∀ r ∈ R, r.start ≤ r.stop := fun r hr => (hg r hr).2
  have hms : 1 ≤ maxStop R := one_le_maxStop R hne hg
  have hrow1 : (rowsA R).getD 0 [] = row R 1 := by
    rw [getD_rowsA R 0 (by omega)]
  have hadm1 : (((rowsA R).getD 0 []).prod : Int) ≤ B := by
    rw [hrow1, row_one_eq_starts R hg]
    exact hfeas
  obtain ⟨p, hp⟩ := pickIdx_isSome B (rowsA R) 0 (by rw [length_rowsA]; omega) hadm1
  obtain ⟨pi, pv⟩ := p
  have hAspec := pickIdx_spec B (rowsA R) pi pv hp
  have haAdm : (((rowsA R).getD pi []).prod : Int) ≤ B := hAspec.2.1
  have hiA : pi < maxStop R := by
    have := hAspec.1
    rwa [length_rowsA] at this
  have haRow : (rowsA R).getD pi [] = row R (pi + 1) := getD_rowsA R pi hiA
  have hzmem : List.replicate R.length 0 ∈ zerone R.length :=
    replicate_mem_zerone _ _ (by omega)
  have hmemB : addClip R ((rowsA R).getD pi []) (List.replicate R.length 0) ∈
      rowsB R ((rowsA R).getD pi []) := by
    rw [rowsB]
    exact List.mem_map_of_mem _ hzmem
  have hzeroEq : addClip R ((rowsA R).getD pi []) (List.replicate R.length 0) =
      (rowsA R).getD pi [] := by
    rw [haRow]
    exact addClip_zero_eq R (pi + 1) hge
  have hmemS : (rowsA R).getD pi [] ∈ sortedB R ((rowsA R).getD pi []) := by
    have hm := (sortedB_perm R ((rowsA R).getD pi [])).mem_iff.mpr hmemB
    rwa [hzeroEq] at hm
  obtain ⟨j, hj, hgj⟩ := exists_getD_of_mem _ _ [] hmemS
  obtain ⟨q, hq⟩ := pickIdx_isSome B (sortedB R ((rowsA R).getD pi [])) j hj
    (by rw [hgj]; exact haAdm)
  refine ⟨(sortedB R ((rowsA R).getD pi [])).getD q.1 [], ?_⟩
  rw [ranges2product, if_neg (by simpa [List.isEmpty_iff] using hne),
    if_neg (by omega)]
  simp only [hp, hq]

/-! ### Orchestrator layer: inversion and invariants -/

theorem except_bind_ok {ε α β : Type} (x : Except ε α) (f : α → Except ε β) (b : β) :
    (x >>= f) = .ok b ↔ ∃ a, x = .ok a ∧ f a = .ok b := by
  cases x with
  | error e =>
    constructor
    · intro h
      exact absurd h (by simp [Bind.bind, Except.bind])
    · intro ⟨a, ha, _⟩
      exact absurd ha (by simp)
  | ok a =>
    constructor
    · intro h
      exact ⟨a, rfl, by simpa [Bind.bind, Except.bind] using h⟩
    · intro ⟨a0, ha, hf⟩
      have : a0 = a := by injection ha.symm
      subst this
      simpa [Bind.bind, Except.bind] using hf

theorem applyGroup_ok_elim (B : Int) (R : List Rng) (axes : List Nat)
    (R' : List Rng) (h : applyGroup B R axes = .ok R') :
    ∃ c, ranges2product (trialRngs R axes) B = .ok c ∧ R' = pinRngs R axes c := by
  rw [applyGroup] at h
  cases hr : ranges2product (trialRngs R axes) B with
  | error e =>
    rw [hr] at h
    exact absurd h (by simp [Except.map])
  | ok c =>
    rw [hr] at h
    refine ⟨c, rfl, ?_⟩
    simp only [Except.map] at h
    injection h with h0
    exact h0.symm

theorem shape2chunk_ok_elim (shape : List Nat) (numel : Int)
    (pAxes : Option (List (List Nat))) (out : List Nat)
    (h : shape2chunk shape numel pAxes = .ok out) :
    (0 ∉ shape) ∧ numel ≠ 0 ∧
      ∃ R, (pAxes.getD []).foldlM (fun rngs axes => applyGroup numel rngs axes)
          (initRngs shape) = .ok R ∧
        ranges2product R numel = .ok out := by
  rw [shape2chunk] at h
  by_cases h0 : 0 ∈ shape
  · rw [if_pos h0] at h
    exact absurd h (by simp)
  · rw [if_neg h0] at h
    by_cases hn : numel = 0
    · rw [if_pos hn] at h
      exact absurd h (by simp)
    · rw [if_neg hn] at h
      refine ⟨h0, hn, ?_⟩
      cases hf : (pAxes.getD []).foldlM (fun rngs axes => applyGroup numel rngs axes)
          (initRngs shape) with
      | error e =>
        rw [hf] at h
        exact absurd h (by simp)
      | ok R =>
        rw [hf] at h
        exact ⟨R, rfl, h⟩

theorem stateOk_init (shape : List Nat) (hs : ∀ s ∈ shape, 1 ≤ s) :
    StateOk shape (initRngs shape) := by
  refine ⟨length_initRngs shape, ?_⟩
  intro i hi
  rw [length_initRngs] at hi
  rw [getD_initRngs shape i hi]
  have : 1 ≤ shape.getD i 0 := hs _ (getD_mem_self shape i 0 hi)
  exact ⟨le_refl 1, this, le_refl _, Or.inl rfl⟩

theorem stateOk_goodRngs (shape : List Nat) (R : List Rng) (h : StateOk shape R) :
    GoodRngs R := by
  intro r hr
  obtain ⟨i, hi, hg⟩ := exists_getD_of_mem R r dRng hr
  obtain ⟨h1, h2, _, h4⟩ := h.2 i hi
  rw [hg] at h1 h2 h4
  exact ⟨h1, h2, h4⟩

theorem goodRngs_trial (R : List Rng) (axes : List Nat) (h : GoodRngs R) :
    GoodRngs (trialRngs R axes) := by
  intro t ht
  obtain ⟨i, hi, hg⟩ := exists_getD_of_mem _ t dRng ht
  rw [length_trialRngs] at hi
  rw [getD_trialRngs R axes i hi] at hg
  have hmem := h _ (getD_mem_self R i dRng hi)
  by_cases hax : i ∈ axes
  · rw [if_pos hax] at hg
    rw [← hg]
    exact hmem
  · rw [if_neg hax] at hg
    rw [← hg]
    exact ⟨hmem.1, le_refl _, Or.inr rfl⟩

theorem stateOk_applyGroup (shape : List Nat) (B : Int) (R : List Rng)
    (axes : List Nat) (R' : List Rng) (hst : StateOk shape R)
    (h : applyGroup B R axes = .ok R') : StateOk shape R' := by
  obtain ⟨c, hr2p, hpin⟩ := applyGroup_ok_elim B R axes R' h
  have hgood : GoodRngs (trialRngs R axes) :=
    goodRngs_trial R axes (stateOk_goodRngs shape R hst)
  have hge : ∀ r ∈ trialRngs R axes, r.start ≤ r.stop := fun r hr => (hgood r hr).2.1
  refine ⟨?_, ?_⟩
  · rw [hpin, length_pinRngs]
    exact hst.1
  · intro i hi
    rw [hpin, length_pinRngs] at hi
    rw [hpin, getD_pinRngs R axes c i hi]
    obtain ⟨h1, h2, h3, h4⟩ := hst.2 i hi
    by_cases hax : i ∈ axes
    · rw [if_pos hax]
      have hb := r2p_ok_bounds _ B c hge hr2p i (by rw [length_trialRngs]; exact hi)
      rw [getD_trialRngs R axes i hi, if_pos hax] at hb
      exact ⟨show (1 : Nat) ≤ c.getD i 0 by omega, le_refl _,
        show c.getD i 0 ≤ shape.getD i 0 by omega, Or.inr rfl⟩
    · rw [if_neg hax]
      exact ⟨h1, h2, h3, h4⟩

theorem stateOk_fold (shape : List Nat) (B : Int) :
    ∀ (groups : List (List Nat)) (R R' : List Rng), StateOk shape R →
      groups.foldlM (fun rngs axes => applyGroup B rngs axes) R = .ok R' →
      StateOk shape R' := by
  intro groups
  induction groups with
  | nil =>
    intro R R' hst h
    simp only [List.foldlM_nil] at h
    have : R = R' := by injection h
    rwa [← this]
  | cons g rest ih =>
    intro R R' hst h
    rw [List.foldlM_cons] at h
    obtain ⟨R1, h1, h2⟩ := (except_bind_ok _ _ _).mp h
    exact ih R1 R' (stateOk_applyGroup shape B R g R1 hst h1) h2

/-! ### Further shared helpers -/

theorem startsOf_initRngs_prod (shape : List Nat) :
    (startsOf (initRngs shape)).prod = 1 := by
  have : startsOf (initRngs shape) = List.replicate shape.length 1 := by
    refine list_eq_of_getD _ _ ?_ ?_
    · rw [length_startsOf, length_initRngs, List.length_replicate]
    · intro i hi
      rw [length_startsOf, length_initRngs] at hi
      rw [getD_startsOf _ i (by rw [length_initRngs]; exact hi),
        getD_initRngs shape i hi]
      rw [List.getD_eq_getElem?_getD]
      simp [hi]
  rw [this]
  simp

theorem stopsOf_initRngs (shape : List Nat) : stopsOf (initRngs shape) = shape := by
  refine list_eq_of_getD _ _ ?_ ?_
  · rw [length_stopsOf, length_initRngs]
  · intro i hi
    rw [length_stopsOf, length_initRngs] at hi
    rw [getD_stopsOf _ i (by rw [length_initRngs]; exact hi),
      getD_initRngs shape i hi]

/-- A pinned working range survives one group step unchanged: if the
dimension is outside the group it is untouched, and if it is inside the
group the solver is forced back to the pinned value. -/
theorem applyGroup_pinned (B : Int) (R : List Rng) (axes : List Nat)
    (R' : List Rng) (i v : Nat) (hg : GoodRngs R) (hi : i < R.length)
    (hpin : R.getD i dRng = ⟨v, v⟩) (h : applyGroup B R axes = .ok R') :
    R'.getD i dRng = ⟨v, v⟩ := by
  obtain ⟨c, hr2p, hpr⟩ := applyGroup_ok_elim B R axes R' h
  have hge : ∀ r ∈ trialRngs R axes, r.start ≤ r.stop :=
    fun r hr => (goodRngs_trial R axes hg r hr).2.1
  rw [hpr, getD_pinRngs R axes c i hi]
  by_cases hax : i ∈ axes
  · rw [if_pos hax]
    have hb := r2p_ok_bounds _ B c hge hr2p i (by rw [length_trialRngs]; exact hi)
    rw [getD_trialRngs R axes i hi, if_pos hax, hpin] at hb
    have h1 : v ≤ c.getD i 0 := hb.1
    have h2 : c.getD i 0 ≤ v := hb.2
    have : c.getD i 0 = v := by omega
    rw [this]
  · rw [if_neg hax]
    exact hpin

/-- A pinned working range survives any sequence of group steps. -/
theorem pinned_fold (shape : List Nat) (B : Int) :
    ∀ (groups : List (List Nat)) (R R' : List Rng) (i v : Nat),
      StateOk shape R → i < R.length → R.getD i dRng = ⟨v, v⟩ →
      groups.foldlM (fun rngs axes => applyGroup B rngs axes) R = .ok R' →
      R'.getD i dRng = ⟨v, v⟩ := by
  intro groups
  induction groups with
  | nil =>
    intro R R' i v _ _ hpin h
    simp only [List.foldlM_nil] at h
    have : R = R' := by injection h
    rwa [← this]
  | cons g rest ih =>
    intro R R' i v hst hi hpin h
    rw [List.foldlM_cons] at h
    obtain ⟨R1, h1, h2⟩ := (except_bind_ok _ _ _).mp h
    have hst1 : StateOk shape R1 := stateOk_applyGroup shape B R g R1 hst h1
    have hlen1 : R1.length = R.length := by
      obtain ⟨c, _, hpr⟩ := applyGroup_ok_elim B R g R1 h1
      rw [hpr, length_pinRngs]
    refine ih R1 R' i v hst1 (by omega) ?_ h2
    exact applyGroup_pinned B R g R1 i v (stateOk_goodRngs shape R hst) hi hpin h1

/-! ### Claim C1: budget property -/

/-- C1: for every call to `shape2chunk` with all extents at least one and a
feasible positive budget `numel` (with or without `pref_axes`), the product
of all coordinates of the returned tuple is at most `numel`. -/
theorem C1_budget (shape : List Nat) (numel : Int) (pAxes : Option (List (List Nat)))
    (out : List Nat) (hs : ∀ s ∈ shape, 1 ≤ s) (hpos : 0 < numel)
    (h : shape2chunk shape numel pAxes = .ok out) :
    (out.prod : Int) ≤ numel := by
  obtain ⟨_, _, R, _, hr⟩ := shape2chunk_ok_elim _ _ _ _ h
  exact r2p_ok_budget R numel out hr

theorem C1_budget_witness :
    shape2chunk [2, 3] 4 none = Except.ok [2, 2] ∧
      ((([2, 2] : List Nat).prod : Int) ≤ 4) :=
  ⟨by decide, C1_budget [2, 3] 4 none [2, 2] (by decide) (by decide) (by decide)⟩

/-! ### Claim C2: bound property -/

/-- C2: for every call to `shape2chunk` with all extents at least one and a
feasible positive budget, the returned tuple has one coordinate per
dimension and every coordinate `i` satisfies `1 ≤ chunk[i] ≤ shape[i]`. -/
theorem C2_bounds (shape : List Nat) (numel : Int) (pAxes : Option (List (List Nat)))
    (out : List Nat) (hs : ∀ s ∈ shape, 1 ≤ s) (hpos : 0 < numel)
    (h : shape2chunk shape numel pAxes = .ok out) :
    out.length = shape.length ∧ ∀ i, i < shape.length →
      1 ≤ out.getD i 0 ∧ out.getD i 0 ≤ shape.getD i 0 := by
  obtain ⟨h0, hn, R, hfold, hr⟩ := shape2chunk_ok_elim _ _ _ _ h
  have hst : StateOk shape R :=
    stateOk_fold shape numel _ _ R (stateOk_init shape hs) hfold
  have hge : ∀ r ∈ R, r.start ≤ r.stop :=
    fun r hr2 => (stateOk_goodRngs _ _ hst r hr2).2.1
  constructor
  · rw [r2p_ok_len R numel out hr, hst.1]
  · intro i hi
    have hiR : i < R.length := by rw [hst.1]; exact hi
    have hb := r2p_ok_bounds R numel out hge hr i hiR
    obtain ⟨h1, h2, h3, _⟩ := hst.2 i hiR
    omega

theorem C2_bounds_witness :
    shape2chunk [2, 3] 4 none = Except.ok [2, 2] ∧
      (([2, 2] : List Nat).length = ([2, 3] : List Nat).length ∧
        ∀ i, i < ([2, 3] : List Nat).length →
          1 ≤ ([2, 2] : List Nat).getD i 0 ∧
          ([2, 2] : List Nat).getD i 0 ≤ ([2, 3] : List Nat).getD i 0) :=
  ⟨by decide, C2_bounds [2, 3] 4 none [2, 2] (by decide) (by decide) (by decide)⟩

/-! ### Claim C10: implicit balance guarantee -/

/-- C10: for every call `shape2chunk(shape, numel, None)` with a feasible
positive budget, any two coordinates of the returned tuple whose values are
strictly below their own extents differ by at most one. -/
theorem C10_balance (shape : List Nat) (numel : Int) (out : List Nat)
    (hs : ∀ s ∈ shape, 1 ≤ s) (hpos : 0 < numel)
    (h : shape2chunk shape numel none = .ok out)
    (i j : Nat) (hi : i < shape.length) (hj : j < shape.length)
    (hui : out.getD i 0 < shape.getD i 0) (huj : out.getD j 0 < shape.getD j 0) :
    out.getD i 0 ≤ out.getD j 0 + 1 := by
  obtain ⟨h0, hn, R, hfold, hr⟩ := shape2chunk_ok_elim _ _ _ _ h
  have hR : (initRngs shape) = R := by
    simp only [Option.getD_none, List.foldlM_nil] at hfold
    injection hfold
  rw [← hR] at hr
  obtain ⟨i0, v, hpick, hiA, z, hz, hzeq, hle, hmax⟩ := r2p_ok_struct _ numel out hr
  have hlenIR : (initRngs shape).length = shape.length := length_initRngs shape
  have haRow : (rowsA (initRngs shape)).getD i0 [] = row (initRngs shape) (i0 + 1) :=
    getD_rowsA _ i0 hiA
  have key : ∀ m, m < shape.length → out.getD m 0 < shape.getD m 0 →
      out.getD m 0 = (i0 + 1) + z.getD m 0 ∧ z.getD m 0 ≤ 1 := by
    intro m hm hum
    have hmR : m < (initRngs shape).length := by rw [hlenIR]; exact hm
    have hzl : z.length = (initRngs shape).length := zerone_length _ z hz
    have hout : out.getD m 0 =
        clip (((rowsA (initRngs shape)).getD i0 []).getD m 0 + z.getD m 0) 1
          (shape.getD m 0) := by
      rw [hzeq, getD_addClip _ _ z m (by rw [haRow, length_row]) hzl hmR,
        getD_initRngs shape m hm]
    have haM : ((rowsA (initRngs shape)).getD i0 []).getD m 0 =
        clip (i0 + 1) 1 (shape.getD m 0) := by
      rw [haRow, getD_row _ _ m hmR, getD_initRngs shape m hm]
    have hzM : z.getD m 0 ≤ 1 :=
      zerone_le_one _ z hz _ (getD_mem_self z m 0 (by rw [hzl]; exact hmR))
    rw [haM] at hout
    simp only [clip] at hout
    omega
  obtain ⟨ei, ezi⟩ := key i hi hui
  obtain ⟨ej, ezj⟩ := key j hj huj
  omega

theorem C10_balance_witness :
    shape2chunk [5, 5] 3 none = Except.ok [2, 1] ∧
      (([2, 1] : List Nat).getD 0 0 ≤ ([2, 1] : List Nat).getD 1 0 + 1) :=
  ⟨by decide, C10_balance [5, 5] 3 [2, 1] (by decide) (by decide) (by decide)
    0 1 (by decide) (by decide) (by decide) (by decide)⟩

/-! ### Claim C9: whole-array edge case (corrected: non-empty shape needed) -/

/-- C9 counterexample: the empty shape satisfies the claim hypotheses (all of
its extents are at least one, vacuously, and the budget covers the whole
product, which is one), yet `shape2chunk` crashes on `max([])` instead of
returning the shape. -/
theorem C9_counterexample :
    (∀ s ∈ ([] : List Nat), 1 ≤ s) ∧ ((([] : List Nat).prod : Int) ≤ 1) ∧
      shape2chunk ([] : List Nat) 1 none = Except.error Err.emptyMax ∧
      shape2chunk ([] : List Nat) 1 none ≠ Except.ok ([] : List Nat) := by
  decide

/-- C9 amended: for every non-empty shape with all extents at least one and
every budget at least the full product of the shape, `shape2chunk` with no
preference plan returns the shape itself. -/
theorem C9_whole_array (shape : List Nat) (numel : Int) (hne : shape ≠ [])
    (hs : ∀ s ∈ shape, 1 ≤ s) (hbig : (shape.prod : Int) ≤ numel) :
    shape2chunk shape numel none = .ok shape := by
  have hpos1 : 1 ≤ shape.prod :=
    one_le_prod (fun i hi => hs _ (getD_mem_self shape i 0 hi))
  have hzero : 0 ∉ shape := by
    intro hc
    exact absurd (hs 0 hc) (by omega)
  have hnum : numel ≠ 0 := by omega
  have hfold : (((none : Option (List (List Nat))).getD []).foldlM
      (fun rngs axes => applyGroup numel rngs axes) (initRngs shape)) =
      Except.ok (initRngs shape) := rfl
  rw [shape2chunk, if_neg hzero, if_neg hnum]
  simp only [hfold]
  have hIRne : initRngs shape ≠ [] := by
    intro hc
    have := length_initRngs shape
    rw [hc] at this
    cases shape with
    | nil => exact absurd rfl hne
    | cons a t => simp at this
  have hgood : ∀ r ∈ initRngs shape, 1 ≤ r.start ∧ r.start ≤ r.stop := by
    intro r hr
    obtain ⟨i, hi, hg⟩ := exists_getD_of_mem _ r dRng hr
    rw [length_initRngs] at hi
    rw [getD_initRngs shape i hi] at hg
    have := hs _ (getD_mem_self shape i 0 hi)
    rw [← hg]
    exact ⟨le_refl 1, this⟩
  have hge : ∀ r ∈ initRngs shape, r.start ≤ r.stop := fun r hr => (hgood r hr).2
  have hfeas : (((startsOf (initRngs shape)).prod : Int)) ≤ numel := by
    rw [startsOf_initRngs_prod]
    omega
  obtain ⟨o, ho⟩ := r2p_isOk (initRngs shape) numel hIRne hgood hfeas
  have hlen : o.length = shape.length := by
    rw [r2p_ok_len _ numel o ho, length_initRngs]
  have hub : ∀ i, i < shape.length → o.getD i 0 ≤ shape.getD i 0 := by
    intro i hi
    have hb := r2p_ok_bounds _ numel o hge ho i (by rw [length_initRngs]; exact hi)
    rw [getD_initRngs shape i hi] at hb
    exact hb.2
  have hlb : ∀ i, i < shape.length → 1 ≤ o.getD i 0 := by
    intro i hi
    have hb := r2p_ok_bounds _ numel o hge ho i (by rw [length_initRngs]; exact hi)
    rw [getD_initRngs shape i hi] at hb
    exact hb.1
  have hprodge : shape.prod ≤ o.prod := by
    obtain ⟨i0, v, hpick, hiA, z, hz, hzeq, _, _⟩ := r2p_ok_struct _ numel o ho
    have haRow : (rowsA (initRngs shape)).getD i0 [] = row (initRngs shape) (i0 + 1) :=
      getD_rowsA _ i0 hiA
    have hmaxadm : ((row (initRngs shape) (maxStop (initRngs shape))).prod : Int) ≤ numel := by
      rw [row_maxStop_eq_stops _ hge, stopsOf_initRngs]
      exact hbig
    have hA := r2p_ok_phaseA_max (initRngs shape) numel i0 v hpick
      (maxStop (initRngs shape)) (one_le_maxStop _ hIRne hgood) (le_refl _) hmaxadm
    rw [row_maxStop_eq_stops _ hge, stopsOf_initRngs] at hA
    have hal : ((rowsA (initRngs shape)).getD i0 []).length = (initRngs shape).length := by
      rw [haRow]
      exact length_row _ _
    have hzl : z.length = (initRngs shape).length := zerone_length _ z hz
    have hao : ((rowsA (initRngs shape)).getD i0 []).prod ≤ o.prod := by
      rw [hzeq]
      refine prod_le_of_pointwise _ _ ?_ ?_
      · rw [length_addClip _ _ z hal hzl, hal]
      · intro i hi
        rw [hal] at hi
        rw [haRow]
        exact addClip_ge_base _ (i0 + 1) z hge hzl i hi
    omega
  have : o = shape := by
    refine eq_of_pointwise_le_of_prod_le o shape hlen ?_ ?_ hprodge
    · intro i hi
      rw [hlen] at hi
      exact hub i hi
    · intro i hi
      rw [hlen] at hi
      exact hlb i hi
  rw [this] at ho
  exact ho

theorem C9_whole_array_witness :
    (([2, 3] : List Nat) ≠ [] ∧ ((([2, 3] : List Nat).prod : Int) ≤ 11)) ∧
      shape2chunk [2, 3] 11 none = Except.ok [2, 3] :=
  ⟨⟨by decide, by decide⟩,
    C9_whole_array [2, 3] 11 (by decide) (by decide) (by decide)⟩

/-! ### Claim C7: invalid budget (corrected: negative budgets raise the
infeasible-budget error, not the invalid-budget one) -/

/-- C7 counterexample: a negative budget is rejected through the
infeasibility check of `_ranges2product`, not through the dedicated
zero-budget check, so the error kind is `InfeasibleBudget` rather than
`InvalidBudget`. -/
theorem C7_counterexample :
    shape2chunk [2] (-1) none = Except.error Err.infeasibleBudget ∧
      Err.infeasibleBudget ≠ Err.invalidBudget := by
  decide

/-- C7 amended: with all extents at least one, a zero budget fails with the
`InvalidBudget` error, and a negative budget also never returns a chunk
shape (it raises the solver infeasibility error instead). -/
theorem C7_invalid_budget (shape : List Nat) (numel : Int)
    (pAxes : Option (List (List Nat))) (hs : ∀ s ∈ shape, 1 ≤ s)
    (hnp : numel ≤ 0) :
    (numel = 0 → shape2chunk shape numel pAxes = .error .invalidBudget) ∧
      (numel < 0 → ∀ out, shape2chunk shape numel pAxes ≠ .ok out) := by
  have hzero : 0 ∉ shape := by
    intro hc
    exact absurd (hs 0 hc) (by omega)
  constructor
  · intro h0
    rw [shape2chunk, if_neg hzero, if_pos h0]
  · intro hneg out hok
    obtain ⟨_, _, R, _, hr⟩ := shape2chunk_ok_elim _ _ _ _ hok
    have hfeas := r2p_ok_feasible R numel out hr
    have : (0 : Int) ≤ ((startsOf R).prod : Int) := Int.natCast_nonneg _
    omega

theorem C7_invalid_budget_witness :
    ((∀ s ∈ ([2] : List Nat), 1 ≤ s) ∧ ((-1 : Int) ≤ 0)) ∧
      (((-1 : Int) = 0 → shape2chunk [2] (-1) none = .error .invalidBudget) ∧
        ((-1 : Int) < 0 → ∀ out, shape2chunk [2] (-1) none ≠ .ok out)) :=
  ⟨⟨by decide, by decide⟩, C7_invalid_budget [2] (-1) none (by decide) (by decide)⟩

/-! ### Claim C8: overlapping preference (corrected: no overlap validation
exists; the call succeeds) -/

/-- C8 counterexample: a plan in which dimension 0 appears in two groups is
not rejected: the call returns a chunk shape normally, so no
`OverlappingPreference` failure exists in the code. -/
theorem C8_counterexample :
    (0 ∈ [0] ∧ 0 ∈ [0, 1]) ∧
      shape2chunk [4, 4] 4 (some [[0], [0, 1]]) = Except.ok [4, 1] := by
  decide

/-- C8 amended: overlapping preference groups are accepted, and the later
group cannot change an already pinned dimension: re-solving over its pinned
single-value range returns the same value, so the first group that contains
a dimension determines its value. -/
theorem C8_overlap_repin (B : Int) (R : List Rng) (axes : List Nat)
    (R' : List Rng) (i v : Nat) (hg : GoodRngs R) (hi : i < R.length)
    (hpin : R.getD i dRng = ⟨v, v⟩) (h : applyGroup B R axes = .ok R') :
    R'.getD i dRng = ⟨v, v⟩ :=
  applyGroup_pinned B R axes R' i v hg hi hpin h

theorem C8_overlap_repin_witness :
    (GoodRngs [⟨4, 4⟩, ⟨1, 4⟩] ∧
      applyGroup 4 [⟨4, 4⟩, ⟨1, 4⟩] [0, 1] = Except.ok [⟨4, 4⟩, ⟨1, 1⟩]) ∧
      ([⟨4, 4⟩, ⟨1, 1⟩] : List Rng).getD 0 dRng = ⟨4, 4⟩ :=
  ⟨⟨by unfold GoodRngs; decide, by decide⟩,
    C8_overlap_repin 4 [⟨4, 4⟩, ⟨1, 4⟩] [0, 1] [⟨4, 4⟩, ⟨1, 1⟩] 0 4
      (by unfold GoodRngs; decide) (by decide) (by decide) (by decide)⟩

/-! ### Claim C4: non-group dimensions pinned to one (corrected: they are
pinned to the start of their current working range) -/

/-- C4 counterexample: with `shape=(4,4)`, `numel=4`, plan `[[0],[1]]`, the
first group pins dimension 0 at 4; the trial range set of the second group
then pins dimension 0 to `(4,4)`, not `(1,1)`, so the second solve sees a
multiplicative factor of 4 and yields 1, whereas a solve with dimension 0
contributing a factor of one would give the value 4 to dimension 1. -/
theorem C4_counterexample :
    List.foldlM (fun rngs axes => applyGroup 4 rngs axes) (initRngs [4, 4]) [[0]] =
        Except.ok [⟨4, 4⟩, ⟨1, 4⟩] ∧
      trialRngs [⟨4, 4⟩, ⟨1, 4⟩] [1] = [⟨4, 4⟩, ⟨1, 4⟩] ∧
      (⟨4, 4⟩ : Rng) ≠ ⟨1, 1⟩ ∧
      shape2chunk [4, 4] 4 (some [[0], [1]]) = Except.ok [4, 1] ∧
      ranges2product [⟨1, 1⟩, ⟨1, 4⟩] 4 = Except.ok [1, 4] := by
  decide

/-- C4 amended: in each per-group solver invocation, every dimension outside
the current group is pinned to the start of its current working range, which
is one for never-pinned dimensions but equals the locked value for
dimensions pinned by earlier groups, so later groups effectively see the
budget reduced by earlier choices. -/
theorem C4_trial_pins_start (R : List Rng) (axes : List Nat) (i : Nat)
    (hi : i < R.length) (hni : i ∉ axes) :
    (trialRngs R axes).getD i dRng =
      ⟨(R.getD i dRng).start, (R.getD i dRng).start⟩ := by
  rw [getD_trialRngs R axes i hi, if_neg hni]

theorem C4_trial_pins_start_witness :
    (0 < ([⟨4, 4⟩, ⟨1, 4⟩] : List Rng).length ∧ 0 ∉ ([1] : List Nat)) ∧
      (trialRngs [⟨4, 4⟩, ⟨1, 4⟩] [1]).getD 0 dRng =
        ⟨(([⟨4, 4⟩, ⟨1, 4⟩] : List Rng).getD 0 dRng).start,
          (([⟨4, 4⟩, ⟨1, 4⟩] : List Rng).getD 0 dRng).start⟩ :=
  ⟨⟨by decide, by decide⟩,
    C4_trial_pins_start [⟨4, 4⟩, ⟨1, 4⟩] [1] 0 (by decide) (by decide)⟩

/-! ### Claim C3: maximality under refinement (corrected: the refinement is
maximal only over the +0/+1 perturbations of the Phase-A tuple, not over
single increments of the returned tuple) -/

/-- C3 counterexample: `shape=(5,5)`, `numel=3` returns `(2,1)` with product
2, yet incrementing dimension 0 (clamped to the extent 5) gives `(3,1)` with
product 3, which is admissible and strictly larger — the claimed local
optimality of the returned tuple fails. -/
theorem C3_counterexample :
    shape2chunk [5, 5] 3 none = Except.ok [2, 1] ∧
      ¬(∀ i, i < 2 →
        (((List.set [2, 1] i
            (min (([2, 1] : List Nat).getD i 0 + 1) (([5, 5] : List Nat).getD i 0))).prod : Int)
              ≤ 3 →
          (List.set [2, 1] i
            (min (([2, 1] : List Nat).getD i 0 + 1)
              (([5, 5] : List Nat).getD i 0))).prod ≤ ([2, 1] : List Nat).prod)) := by
  decide

/-- C3 amended: the returned tuple has the largest admissible product among
the `2^N` clamped +0/+1 perturbations of the Phase-A tuple that the
refinement step enumerates; a single +1 applied to the returned tuple itself
can still produce a larger admissible product. -/
theorem C3_phaseB_max (shape : List Nat) (numel : Int)
    (pAxes : Option (List (List Nat))) (out : List Nat)
    (h : shape2chunk shape numel pAxes = .ok out) :
    ∃ R i v, ranges2product R numel = .ok out ∧
      pickIdx numel (rowsA R) = some (i, v) ∧
      ∀ z ∈ zerone R.length,
        ((addClip R ((rowsA R).getD i []) z).prod : Int) ≤ numel →
        (addClip R ((rowsA R).getD i []) z).prod ≤ out.prod := by
  obtain ⟨_, _, R, _, hr⟩ := shape2chunk_ok_elim _ _ _ _ h
  obtain ⟨i, v, hpick, hiA, z0, hz0, hzeq, hle, hmax⟩ := r2p_ok_struct R numel out hr
  refine ⟨R, i, v, hr, hpick, ?_⟩
  intro z hz hadm
  refine hmax _ ?_ hadm
  rw [rowsB]
  exact List.mem_map_of_mem _ hz

theorem C3_phaseB_max_witness :
    shape2chunk [5, 5] 3 none = Except.ok [2, 1] ∧
      (∃ R i v, ranges2product R 3 = .ok [2, 1] ∧
        pickIdx 3 (rowsA R) = some (i, v) ∧
        ∀ z ∈ zerone R.length,
          ((addClip R ((rowsA R).getD i []) z).prod : Int) ≤ 3 →
          (addClip R ((rowsA R).getD i []) z).prod ≤ ([2, 1] : List Nat).prod) :=
  ⟨by decide, C3_phaseB_max [5, 5] 3 none [2, 1] (by decide)⟩

/-! ### Claim C5: pin respected -/

/-- C5: for every dimension index in some group of the preference plan, the
value at that index in the tuple finally returned by `shape2chunk` equals
the value the axis-group solver returned for that dimension when that group
was solved; no later group solve and no final solve changes it. -/
theorem C5_pin_respected (shape : List Nat) (numel : Int)
    (pre post : List (List Nat)) (g : List Nat) (out : List Nat)
    (rngs1 : List Rng) (chunks : List Nat)
    (hs : ∀ s ∈ shape, 1 ≤ s)
    (h : shape2chunk shape numel (some (pre ++ g :: post)) = .ok out)
    (hpre : pre.foldlM (fun rngs axes => applyGroup numel rngs axes)
      (initRngs shape) = .ok rngs1)
    (hsolve : ranges2product (trialRngs rngs1 g) numel = .ok chunks)
    (i : Nat) (hig : i ∈ g) (hilt : i < shape.length) :
    out.getD i 0 = chunks.getD i 0 := by
  obtain ⟨h0, hn, Rf, hfold, hr⟩ := shape2chunk_ok_elim _ _ _ _ h
  have hfold2 : (pre ++ g :: post).foldlM
      (fun rngs axes => applyGroup numel rngs axes) (initRngs shape) = .ok Rf := hfold
  rw [List.foldlM_append] at hfold2
  obtain ⟨mid, hmid, hrest⟩ := (except_bind_ok _ _ _).mp hfold2
  have hmideq : mid = rngs1 := by
    rw [hpre] at hmid
    injection hmid with h0
    exact h0.symm
  subst hmideq
  rw [List.foldlM_cons] at hrest
  obtain ⟨rngs2, happ, hpost⟩ := (except_bind_ok _ _ _).mp hrest
  obtain ⟨c, hc, hpr⟩ := applyGroup_ok_elim numel mid g rngs2 happ
  have hceq : c = chunks := by
    rw [hsolve] at hc
    injection hc with h0
    exact h0.symm
  subst hceq
  have hst1 : StateOk shape mid :=
    stateOk_fold shape numel pre _ mid (stateOk_init shape hs) hpre
  have hst2 : StateOk shape rngs2 := stateOk_applyGroup shape numel mid g rngs2 hst1 happ
  have hi1 : i < mid.length := by rw [hst1.1]; exact hilt
  have hpin2 : rngs2.getD i dRng = ⟨c.getD i 0, c.getD i 0⟩ := by
    rw [hpr, getD_pinRngs mid g c i hi1, if_pos hig]
  have hi2 : i < rngs2.length := by rw [hst2.1]; exact hilt
  have hpinf : Rf.getD i dRng = ⟨c.getD i 0, c.getD i 0⟩ :=
    pinned_fold shape numel post rngs2 Rf i _ hst2 hi2 hpin2 hpost
  have hstf : StateOk shape Rf := stateOk_fold shape numel post rngs2 Rf hst2 hpost
  have hif : i < Rf.length := by rw [hstf.1]; exact hilt
  have hge : ∀ r ∈ Rf, r.start ≤ r.stop :=
    fun r hr2 => (stateOk_goodRngs _ _ hstf r hr2).2.1
  have hb := r2p_ok_bounds Rf numel out hge hr i hif
  rw [hpinf] at hb
  have h1 : c.getD i 0 ≤ out.getD i 0 := hb.1
  have h2 : out.getD i 0 ≤ c.getD i 0 := hb.2
  omega

theorem C5_pin_respected_witness :
    (shape2chunk [4, 4] 4 (some ([] ++ [0] :: [[1]])) = Except.ok [4, 1] ∧
      ranges2product (trialRngs (initRngs [4, 4]) [0]) 4 = Except.ok [4, 1]) ∧
      ([4, 1] : List Nat).getD 0 0 = ([4, 1] : List Nat).getD 0 0 :=
  ⟨⟨by decide, by decide⟩,
    C5_pin_respected [4, 4] 4 [] [[1]] [0] [4, 1] (initRngs [4, 4]) [4, 1]
      (by decide) (by decide) (by decide) (by decide) 0 (by decide) (by decide)⟩

/-! ### Monotonicity machinery -/

theorem getD_set_self :
    ∀ (l : List Nat) (m a d : Nat), m < l.length → (l.set m a).getD m d = a := by
  intro l
  induction l with
  | nil => intro m a d h; simp at h
  | cons x t ih =>
    intro m a d h
    cases m with
    | zero => simp
    | succ m0 =>
      simp only [List.set_cons_succ, List.getD_cons_succ]
      exact ih m0 a d (by simpa using h)

theorem getD_set_ne :
    ∀ (l : List Nat) (m j a d : Nat), j ≠ m → (l.set m a).getD j d = l.getD j d := by
  intro l
  induction l with
  | nil => intro m j a d _; simp
  | cons x t ih =>
    intro m j a d hne
    cases m with
    | zero =>
      cases j with
      | zero => exact absurd rfl hne
      | succ j0 => simp
    | succ m0 =>
      cases j with
      | zero => simp
      | succ j0 =>
        simp only [List.set_cons_succ, List.getD_cons_succ]
        exact ih m0 j0 a d (by omega)

theorem mem_set_cases :
    ∀ (l : List Nat) (m a x : Nat), x ∈ l.set m a → x = a ∨ x ∈ l := by
  intro l
  induction l with
  | nil => intro m a x h; simp at h
  | cons y t ih =>
    intro m a x h
    cases m with
    | zero =>
      rcases List.mem_cons.mp h with h1 | h2
      · exact Or.inl h1
      · exact Or.inr (List.mem_cons_of_mem y h2)
    | succ m0 =>
      rcases List.mem_cons.mp h with h1 | h2
      · exact Or.inr (by rw [h1]; simp)
      · rcases ih m0 a x h2 with h3 | h4
        · exact Or.inl h3
        · exact Or.inr (List.mem_cons_of_mem y h4)

theorem rowsA_prod_mono (R : List Rng) (j j' : Nat) (hj : j ≤ j')
    (hj' : j' < maxStop R) :
    ((rowsA R).getD j []).prod ≤ ((rowsA R).getD j' []).prod := by
  rw [getD_rowsA R j (by omega), getD_rowsA R j' hj']
  exact row_prod_mono R (j + 1) (j' + 1) (by omega)

theorem pickIdx_idx_eq (R : List Rng) (B1 B2 : Int) (i1 i2 : Nat) (v1 v2 : Int)
    (hB : B1 ≤ B2) (h1 : pickIdx B1 (rowsA R) = some (i1, v1))
    (h2 : pickIdx B2 (rowsA R) = some (i2, v2))
    (hp : ((rowsA R).getD i1 []).prod = ((rowsA R).getD i2 []).prod) :
    i1 = i2 := by
  have spec1 := pickIdx_spec B1 (rowsA R) i1 v1 h1
  have spec2 := pickIdx_spec B2 (rowsA R) i2 v2 h2
  by_contra hne
  rcases Nat.lt_or_ge i1 i2 with hlt | hge
  · have := spec2.2.2.2 i1 hlt (le_trans spec1.2.1 hB)
    omega
  · have hlt2 : i2 < i1 := by omega
    have hadm : (((rowsA R).getD i2 []).prod : Int) ≤ B1 := by
      rw [← hp]
      exact spec1.2.1
    have := spec1.2.2.2 i2 hlt2 hadm
    omega

/-- Monotonicity of a single solver call over a fixed range list: a larger
budget never yields a smaller product. -/
theorem r2p_mono_same (R : List Rng) (B1 B2 : Int) (o1 o2 : List Nat)
    (hg : GoodRngs R) (hB : B1 ≤ B2)
    (h1 : ranges2product R B1 = .ok o1) (h2 : ranges2product R B2 = .ok o2) :
    o1.prod ≤ o2.prod := by
  have hge : ∀ r ∈ R, r.start ≤ r.stop := fun r hr => (hg r hr).2.1
  obtain ⟨i1, v1, hpick1, hiA1, z1, hz1, hzeq1, hle1, hmax1⟩ := r2p_ok_struct R B1 o1 h1
  obtain ⟨i2, v2, hpick2, hiA2, z2, hz2, hzeq2, hle2, hmax2⟩ := r2p_ok_struct R B2 o2 h2
  have ha1 : (rowsA R).getD i1 [] = row R (i1 + 1) := getD_rowsA R i1 hiA1
  have ha2 : (rowsA R).getD i2 [] = row R (i2 + 1) := getD_rowsA R i2 hiA2
  have hp12 : ((rowsA R).getD i1 []).prod ≤ ((rowsA R).getD i2 []).prod := by
    have hadm : ((row R (i1 + 1)).prod : Int) ≤ B2 := by
      rw [← ha1]
      exact le_trans (pickIdx_spec B1 (rowsA R) i1 v1 hpick1).2.1 hB
    have := r2p_ok_phaseA_max R B2 i2 v2 hpick2 (i1 + 1) (by omega) (by omega) hadm
    rwa [← ha1] at this
  have ha2o2 : ((rowsA R).getD i2 []).prod ≤ o2.prod := by
    rw [hzeq2, ha2]
    refine prod_le_of_pointwise _ _ ?_ ?_
    · rw [length_row, length_addClip R _ z2 (length_row R _) (zerone_length _ z2 hz2)]
    · intro m hm
      rw [length_row] at hm
      exact addClip_ge_base R (i2 + 1) z2 hge (zerone_length _ z2 hz2) m hm
  rcases eq_or_lt_of_le hp12 with heq | hlt
  · have hieq : i1 = i2 := pickIdx_idx_eq R B1 B2 i1 i2 v1 v2 hB hpick1 hpick2 heq
    subst hieq
    refine hmax2 o1 ?_ (le_trans hle1 hB)
    rw [hzeq1, rowsB]
    exact List.mem_map_of_mem _ hz1
  · have hi12 : i1 < i2 := by
      by_contra hc
      push_neg at hc
      have := rowsA_prod_mono R i2 i1 hc hiA1
      omega
    have ho1row : o1.prod ≤ (row R (i1 + 2)).prod := by
      refine prod_le_of_pointwise _ _ ?_ ?_
      · rw [hzeq1, ha1,
          length_addClip R _ z1 (length_row R _) (zerone_length _ z1 hz1), length_row]
      · intro m hm
        rw [hzeq1, ha1] at hm ⊢
        rw [length_addClip R _ z1 (length_row R _) (zerone_length _ z1 hz1)] at hm
        have hub := addClip_le_succ R (i1 + 1) z1 hge (zerone_length _ z1 hz1)
          (zerone_le_one _ z1 hz1) m hm
        have hmemR := hg _ (getD_mem_self R m dRng hm)
        have hsucc := clip_succ_eq (i1 + 1) (R.getD m dRng).start (R.getD m dRng).stop
          hmemR.2.1 hmemR.2.2 (by omega)
        rw [getD_row R (i1 + 1) m hm] at hub
        rw [getD_row R (i1 + 2) m hm]
        have h112 : i1 + 1 + 1 = i1 + 2 := by omega
        rw [h112] at hsucc
        omega
    have hrow12 : (row R (i1 + 2)).prod ≤ (row R (i2 + 1)).prod :=
      row_prod_mono R (i1 + 2) (i2 + 1) (by omega)
    rw [ha2] at ha2o2
    omega

/-- Dichotomy of a solver result: either the solution saturates every range
at its upper bound, or its product exceeds half the budget.  Core of the
monotonicity argument for the preference orchestrator. -/
theorem r2p_dichotomy (R : List Rng) (B : Int) (o : List Nat) (hg : GoodRngs R)
    (h : ranges2product R B = .ok o) :
    o.prod = (stopsOf R).prod ∨ B < 2 * (o.prod : Int) := by
  have hge : ∀ r ∈ R, r.start ≤ r.stop := fun r hr => (hg r hr).2.1
  obtain ⟨i, v, hpick, hiA, z, hz, hzeq, hle, hmax⟩ := r2p_ok_struct R B o h
  have ha : (rowsA R).getD i [] = row R (i + 1) := getD_rowsA R i hiA
  rw [ha] at hzeq
  have hzl : z.length = R.length := zerone_length _ z hz
  have hol : o.length = R.length := r2p_ok_len R B o h
  have holb : ∀ m, m < R.length → (R.getD m dRng).start ≤ o.getD m 0 ∧
      o.getD m 0 ≤ (R.getD m dRng).stop := fun m hm => r2p_ok_bounds R B o hge h m hm
  by_contra hcon
  push_neg at hcon
  obtain ⟨hne, hB2⟩ := hcon
  have hstep1 : ∀ m, m < R.length →
      o.getD m 0 = min ((row R (i + 1)).getD m 0 + 1) (R.getD m dRng).stop := by
    intro m hm
    by_contra hneq
    have hub := addClip_le_succ R (i + 1) z hge hzl (zerone_le_one _ z hz) m hm
    have hlb := addClip_ge_base R (i + 1) z hge hzl m hm
    rw [← hzeq] at hub hlb
    obtain ⟨hla, hua⟩ := row_between R (i + 1) hge m hm
    have hmemR := hg _ (getD_mem_self R m dRng hm)
    have ham : (row R (i + 1)).getD m 0 < (R.getD m dRng).stop := by
      by_contra hc
      push_neg at hc
      exact hneq (by omega)
    have hom : o.getD m 0 = (row R (i + 1)).getD m 0 := by omega
    have homlt : o.getD m 0 + 1 ≤ (R.getD m dRng).stop := by omega
    set z' := z.set m 1 with hz'
    have hz'mem : z' ∈ zerone R.length := by
      refine mem_zerone _ _ (by rw [hz', List.length_set]; exact hzl) ?_
      intro x hx
      rcases mem_set_cases z m 1 x hx with h1 | h2
      · omega
      · exact zerone_le_one _ z hz x h2
    have hz'l : z'.length = R.length := by rw [hz', List.length_set]; exact hzl
    set c := addClip R (row R (i + 1)) z' with hc
    have hcl : c.length = R.length := length_addClip R _ z' (length_row R _) hz'l
    have hcm : c.getD m 0 = o.getD m 0 + 1 := by
      rw [hc, getD_addClip R _ z' m (length_row R _) hz'l hm]
      rw [show z'.getD m 0 = 1 from getD_set_self z m 1 0 (by omega)]
      rw [clip_of_between _ _ _ (by omega) (by omega)]
      omega
    have hcj : ∀ j, j < R.length → j ≠ m → c.getD j 0 = o.getD j 0 := by
      intro j hj hjm
      rw [hc, getD_addClip R _ z' j (length_row R _) hz'l hj]
      rw [show z'.getD j 0 = z.getD j 0 from getD_set_ne z m j 1 0 hjm]
      rw [hzeq, getD_addClip R _ z j (length_row R _) hzl hj]
    have hopos : ∀ j, j < R.length → 1 ≤ o.getD j 0 := by
      intro j hj
      have := (holb j hj).1
      have hmemj := hg _ (getD_mem_self R j dRng hj)
      omega
    have hclt : o.prod < c.prod := by
      refine prod_lt_of_pointwise o c m (by omega) (by omega) ?_ ?_ ?_
      · intro j hj
        rw [hol] at hj
        by_cases hjm : j = m
        · subst hjm
          omega
        · rw [hcj j hj hjm]
      · intro j hj
        rw [hol] at hj
        exact hopos j hj
      · omega
    have hc2 : c.prod ≤ 2 * o.prod := by
      refine prod_le_mul_of_pointwise o c m 2 (by omega) (by omega) ?_ ?_
      · intro j hj hjm
        rw [hol] at hj
        rw [hcj j hj hjm]
      · have := hopos m hm
        omega
    have hcadm : ((c.prod : Int)) ≤ B := by omega
    have hcmem : c ∈ rowsB R ((rowsA R).getD i []) := by
      rw [rowsB, ha]
      exact List.mem_map_of_mem _ hz'mem
    have := hmax c hcmem hcadm
    omega
  have hrow2 : o = row R (i + 2) := by
    refine list_eq_of_getD _ _ (by rw [hol, length_row]) ?_
    intro m hm
    rw [hol] at hm
    have hmemR := hg _ (getD_mem_self R m dRng hm)
    have hsucc := clip_succ_eq (i + 1) (R.getD m dRng).start (R.getD m dRng).stop
      hmemR.2.1 hmemR.2.2 (by omega)
    rw [show i + 1 + 1 = i + 2 from by omega] at hsucc
    rw [hstep1 m hm, getD_row R (i + 1) m hm, getD_row R (i + 2) m hm]
    exact hsucc
  have hostops : o = stopsOf R := by
    by_cases hcase : i + 1 < maxStop R
    · have hadm : ((row R (i + 2)).prod : Int) ≤ B := by
        rw [← hrow2]
        exact hle
      have hAmax := r2p_ok_phaseA_max R B i v hpick (i + 2) (by omega) (by omega) hadm
      rw [ha] at hAmax
      have haleo : (row R (i + 1)).prod ≤ o.prod := by
        rw [hzeq]
        refine prod_le_of_pointwise _ _ ?_ ?_
        · rw [length_row, length_addClip R _ z (length_row R _) hzl]
        · intro m hm
          rw [length_row] at hm
          exact addClip_ge_base R (i + 1) z hge hzl m hm
      have hople : o.prod ≤ (row R (i + 1)).prod := by
        rw [hrow2]
        exact hAmax
      have haeq : row R (i + 1) = o :=
        eq_of_pointwise_le_of_prod_le (row R (i + 1)) o
          (by rw [length_row, hol])
          (by
            intro m hm
            rw [length_row] at hm
            rw [hzeq]
            exact addClip_ge_base R (i + 1) z hge hzl m hm)
          (by
            intro m hm
            rw [length_row] at hm
            have := (row_between R (i + 1) hge m hm).1
            have hmemR := hg _ (getD_mem_self R m dRng hm)
            omega)
          hople
      refine list_eq_of_getD _ _ (by rw [hol, length_stopsOf]) ?_
      intro m hm
      rw [hol] at hm
      have h1 := hstep1 m hm
      have h2 : o.getD m 0 = (row R (i + 1)).getD m 0 := by rw [← haeq]
      have h3 := (holb m hm).2
      rw [getD_stopsOf R m hm]
      omega
    · have hieq : i + 1 = maxStop R := by omega
      have hstopsrow : row R (i + 1) = stopsOf R := by
        rw [hieq]
        exact row_maxStop_eq_stops R hge
      refine list_eq_of_getD _ _ (by rw [hol, length_stopsOf]) ?_
      intro m hm
      rw [hol] at hm
      have h1 := hstep1 m hm
      have h2 : (row R (i + 1)).getD m 0 = (R.getD m dRng).stop := by
        rw [hstopsrow, getD_stopsOf R m hm]
      rw [getD_stopsOf R m hm]
      omega
  exact hne (by rw [hostops])

/-- When the budget is below twice the product of the lower bounds, the
solver is forced to return exactly the lower bounds. -/
theorem r2p_forced (R : List Rng) (B : Int) (o : List Nat) (hg : GoodRngs R)
    (hhalf : B < 2 * ((startsOf R).prod : Int)) (h : ranges2product R B = .ok o) :
    o = startsOf R := by
  have hge : ∀ r ∈ R, r.start ≤ r.stop := fun r hr => (hg r hr).2.1
  have hol : o.length = R.length := r2p_ok_len R B o h
  have hle := r2p_ok_budget R B o h
  have hpt : ∀ m, m < R.length → o.getD m 0 = (R.getD m dRng).start := by
    intro m hm
    by_contra hneq
    have hb := r2p_ok_bounds R B o hge h m hm
    have hmemR := hg _ (getD_mem_self R m dRng hm)
    have hdouble : 2 * (R.getD m dRng).start ≤ o.getD m 0 := by
      rcases hmemR.2.2 with h1 | h1
      · omega
      · omega
    have hsp : 2 * (startsOf R).prod ≤ o.prod := by
      refine mul_prod_le_of_pointwise (startsOf R) o m 2
        (by rw [length_startsOf, hol]) (by rw [length_startsOf]; exact hm) ?_ ?_
      · intro j hj
        rw [length_startsOf] at hj
        rw [getD_startsOf R j hj]
        exact (r2p_ok_bounds R B o hge h j hj).1
      · rw [getD_startsOf R m hm]
        exact hdouble
    omega
  refine list_eq_of_getD _ _ (by rw [hol, length_startsOf]) ?_
  intro m hm
  rw [hol] at hm
  rw [getD_startsOf R m hm]
  exact hpt m hm

theorem startsOf_trialRngs (R : List Rng) (axes : List Nat) :
    startsOf (trialRngs R axes) = startsOf R := by
  refine list_eq_of_getD _ _ ?_ ?_
  · rw [length_startsOf, length_trialRngs, length_startsOf]
  · intro i hi
    rw [length_startsOf, length_trialRngs] at hi
    rw [getD_startsOf _ i (by rw [length_trialRngs]; exact hi),
      getD_startsOf R i hi, getD_trialRngs R axes i hi]
    by_cases hax : i ∈ axes
    · rw [if_pos hax]
    · rw [if_neg hax]

/-- After pinning a group to the solver values, the lower bounds of the new
working ranges are exactly the solver tuple. -/
theorem startsOf_pinRngs_eq (R : List Rng) (axes : List Nat) (B : Int)
    (c : List Nat) (hg : GoodRngs R)
    (hok : ranges2product (trialRngs R axes) B = .ok c) :
    startsOf (pinRngs R axes c) = c := by
  have hgt : GoodRngs (trialRngs R axes) := goodRngs_trial R axes hg
  have hget : ∀ r ∈ trialRngs R axes, r.start ≤ r.stop :=
    fun r hr => (hgt r hr).2.1
  have hcl : c.length = R.length := by
    rw [r2p_ok_len _ B c hok, length_trialRngs]
  refine list_eq_of_getD _ _ ?_ ?_
  · rw [length_startsOf, length_pinRngs, hcl]
  · intro i hi
    rw [length_startsOf, length_pinRngs] at hi
    rw [getD_startsOf _ i (by rw [length_pinRngs]; exact hi),
      getD_pinRngs R axes c i hi]
    by_cases hax : i ∈ axes
    · rw [if_pos hax]
    · rw [if_neg hax]
      have hb := r2p_ok_bounds _ B c hget hok i (by rw [length_trialRngs]; exact hi)
      rw [getD_trialRngs R axes i hi, if_neg hax] at hb
      have h1 : (R.getD i dRng).start ≤ c.getD i 0 := hb.1
      have h2 : c.getD i 0 ≤ (R.getD i dRng).start := hb.2
      omega

/-- The lower-bound product never decreases across one group step. -/
theorem starts_prod_le_sol (R : List Rng) (axes : List Nat) (B : Int)
    (c : List Nat) (hg : GoodRngs R)
    (hok : ranges2product (trialRngs R axes) B = .ok c) :
    (startsOf R).prod ≤ c.prod := by
  have hgt : GoodRngs (trialRngs R axes) := goodRngs_trial R axes hg
  have hget : ∀ r ∈ trialRngs R axes, r.start ≤ r.stop :=
    fun r hr => (hgt r hr).2.1
  have hcl : c.length = R.length := by
    rw [r2p_ok_len _ B c hok, length_trialRngs]
  have : (startsOf (trialRngs R axes)).prod ≤ c.prod := by
    refine prod_le_of_pointwise _ _ ?_ ?_
    · rw [length_startsOf, length_trialRngs, hcl]
    · intro i hi
      rw [length_startsOf, length_trialRngs] at hi
      rw [getD_startsOf _ i (by rw [length_trialRngs]; exact hi)]
      exact (r2p_ok_bounds _ B c hget hok i (by rw [length_trialRngs]; exact hi)).1
  rwa [startsOf_trialRngs] at this

theorem fold_starts_grow (shape : List Nat) (B : Int) :
    ∀ (groups : List (List Nat)) (R R' : List Rng), StateOk shape R →
      groups.foldlM (fun rngs axes => applyGroup B rngs axes) R = .ok R' →
      (startsOf R).prod ≤ (startsOf R').prod := by
  intro groups
  induction groups with
  | nil =>
    intro R R' _ h
    simp only [List.foldlM_nil] at h
    have : R = R' := by injection h
    rw [this]
  | cons g rest ih =>
    intro R R' hst h
    rw [List.foldlM_cons] at h
    obtain ⟨S, h1, h2⟩ := (except_bind_ok _ _ _).mp h
    obtain ⟨c, hc, hpin⟩ := applyGroup_ok_elim B R g S h1
    have hg : GoodRngs R := stateOk_goodRngs shape R hst
    have hS : startsOf S = c := by
      rw [hpin]
      exact startsOf_pinRngs_eq R g B c hg hc
    have hgrow : (startsOf R).prod ≤ (startsOf S).prod := by
      rw [hS]
      exact starts_prod_le_sol R g B c hg hc
    have hstS : StateOk shape S := stateOk_applyGroup shape B R g S hst h1
    exact le_trans hgrow (ih S R' hstS h2)

theorem fold_forced (shape : List Nat) (B : Int) :
    ∀ (groups : List (List Nat)) (R R' : List Rng), StateOk shape R →
      B < 2 * ((startsOf R).prod : Int) →
      groups.foldlM (fun rngs axes => applyGroup B rngs axes) R = .ok R' →
      startsOf R' = startsOf R := by
  intro groups
  induction groups with
  | nil =>
    intro R R' _ _ h
    simp only [List.foldlM_nil] at h
    have : R = R' := by injection h
    rw [this]
  | cons g rest ih =>
    intro R R' hst hhalf h
    rw [List.foldlM_cons] at h
    obtain ⟨S, h1, h2⟩ := (except_bind_ok _ _ _).mp h
    obtain ⟨c, hc, hpin⟩ := applyGroup_ok_elim B R g S h1
    have hg : GoodRngs R := stateOk_goodRngs shape R hst
    have hgt : GoodRngs (trialRngs R g) := goodRngs_trial R g hg
    have hctrial : c = startsOf (trialRngs R g) := by
      refine r2p_forced _ B c hgt ?_ hc
      rw [startsOf_trialRngs]
      exact hhalf
    have hcR : c = startsOf R := by rw [hctrial, startsOf_trialRngs]
    have hS : startsOf S = startsOf R := by
      rw [hpin, startsOf_pinRngs_eq R g B c hg hc, hcR]
    have hstS : StateOk shape S := stateOk_applyGroup shape B R g S hst h1
    rw [ih S R' hstS (by rw [hS]; exact hhalf) h2, hS]

/-- A saturated solver output equals the upper bounds as a list. -/
theorem sol_eq_stops (T : List Rng) (B : Int) (c : List Nat) (hg : GoodRngs T)
    (hok : ranges2product T B = .ok c) (hsat : c.prod = (stopsOf T).prod) :
    c = stopsOf T := by
  have hget : ∀ r ∈ T, r.start ≤ r.stop := fun r hr => (hg r hr).2.1
  have hcl : c.length = T.length := r2p_ok_len T B c hok
  refine eq_of_pointwise_le_of_prod_le c (stopsOf T)
    (by rw [hcl, length_stopsOf]) ?_ ?_ (by omega)
  · intro i hi
    rw [hcl] at hi
    rw [getD_stopsOf T i hi]
    exact (r2p_ok_bounds T B c hget hok i hi).2
  · intro i hi
    rw [hcl] at hi
    have := (r2p_ok_bounds T B c hget hok i hi).1
    have hmem := hg _ (getD_mem_self T i dRng hi)
    omega

/-- Orchestrator monotonicity: with the same group sequence processed from
the same state under two budgets, the final solver product is monotone in
the budget. -/
theorem mono_fold (shape : List Nat) (n1 n2 : Int) (hB : n1 ≤ n2) :
    ∀ (groups : List (List Nat)) (R R1 R2 : List Rng) (o1 o2 : List Nat),
      StateOk shape R →
      groups.foldlM (fun rngs axes => applyGroup n1 rngs axes) R = .ok R1 →
      groups.foldlM (fun rngs axes => applyGroup n2 rngs axes) R = .ok R2 →
      ranges2product R1 n1 = .ok o1 → ranges2product R2 n2 = .ok o2 →
      o1.prod ≤ o2.prod := by
  intro groups
  induction groups with
  | nil =>
    intro R R1 R2 o1 o2 hst h1 h2 hr1 hr2
    simp only [List.foldlM_nil] at h1 h2
    have e1 : R = R1 := by injection h1
    have e2 : R = R2 := by injection h2
    rw [← e1] at hr1
    rw [← e2] at hr2
    exact r2p_mono_same R n1 n2 o1 o2 (stateOk_goodRngs shape R hst) hB hr1 hr2
  | cons g rest ih =>
    intro R R1 R2 o1 o2 hst h1 h2 hr1 hr2
    rw [List.foldlM_cons] at h1 h2
    obtain ⟨S1, hS1, hrest1⟩ := (except_bind_ok _ _ _).mp h1
    obtain ⟨S2, hS2, hrest2⟩ := (except_bind_ok _ _ _).mp h2
    obtain ⟨c1, hc1, hpin1⟩ := applyGroup_ok_elim n1 R g S1 hS1
    obtain ⟨c2, hc2, hpin2⟩ := applyGroup_ok_elim n2 R g S2 hS2
    have hg : GoodRngs R := stateOk_goodRngs shape R hst
    have hgt : GoodRngs (trialRngs R g) := goodRngs_trial R g hg
    have hq : c1.prod ≤ c2.prod := r2p_mono_same _ n1 n2 c1 c2 hgt hB hc1 hc2
    have hstS1 : StateOk shape S1 := stateOk_applyGroup shape n1 R g S1 hst hS1
    have hstS2 : StateOk shape S2 := stateOk_applyGroup shape n2 R g S2 hst hS2
    rcases r2p_dichotomy _ n1 c1 hgt hc1 with hsat | hhalf
    · have hc1e : c1 = stopsOf (trialRngs R g) := sol_eq_stops _ n1 c1 hgt hc1 hsat
      have hc2ub : c2.prod ≤ (stopsOf (trialRngs R g)).prod := by
        have hget : ∀ r ∈ trialRngs R g, r.start ≤ r.stop :=
          fun r hr => (hgt r hr).2.1
        have hcl : c2.length = (trialRngs R g).length := r2p_ok_len _ n2 c2 hc2
        refine prod_le_of_pointwise _ _ (by rw [hcl, length_stopsOf]) ?_
        intro i hi
        rw [hcl] at hi
        rw [getD_stopsOf _ i hi]
        exact (r2p_ok_bounds _ n2 c2 hget hc2 i hi).2
      have hc2sat : c2.prod = (stopsOf (trialRngs R g)).prod := by
        rw [hc1e] at hq
        omega
      have hc2e : c2 = stopsOf (trialRngs R g) := sol_eq_stops _ n2 c2 hgt hc2 hc2sat
      have hSeq : S2 = S1 := by
        rw [hpin1, hpin2, hc1e, hc2e]
      rw [hSeq] at hrest2
      exact ih S1 R1 R2 o1 o2 hstS1 hrest1 hrest2 hr1 hr2
    · have hS1starts : startsOf S1 = c1 := by
        rw [hpin1]
        exact startsOf_pinRngs_eq R g n1 c1 hg hc1
      have hhalfS1 : n1 < 2 * ((startsOf S1).prod : Int) := by
        rw [hS1starts]
        exact hhalf
      have hforced : startsOf R1 = startsOf S1 :=
        fold_forced shape n1 rest S1 R1 hstS1 hhalfS1 hrest1
      have hstR1 : StateOk shape R1 := stateOk_fold shape n1 rest S1 R1 hstS1 hrest1
      have ho1 : o1 = startsOf R1 := by
        refine r2p_forced R1 n1 o1 (stateOk_goodRngs shape R1 hstR1) ?_ hr1
        rw [hforced]
        exact hhalfS1
      have ho1p : o1.prod = c1.prod := by
        rw [ho1, hforced, hS1starts]
      have hS2starts : startsOf S2 = c2 := by
        rw [hpin2]
        exact startsOf_pinRngs_eq R g n2 c2 hg hc2
      have hgrow : (startsOf S2).prod ≤ (startsOf R2).prod :=
        fold_starts_grow shape n2 rest S2 R2 hstS2 hrest2
      have hstR2 : StateOk shape R2 := stateOk_fold shape n2 rest S2 R2 hstS2 hrest2
      have hgeR2 : ∀ r ∈ R2, r.start ≤ r.stop :=
        fun r hr => (stateOk_goodRngs shape R2 hstR2 r hr).2.1
      have ho2ge : (startsOf R2).prod ≤ o2.prod := by
        refine prod_le_of_pointwise _ _ ?_ ?_
        · rw [length_startsOf, r2p_ok_len R2 n2 o2 hr2]
        · intro i hi
          rw [length_startsOf] at hi
          rw [getD_startsOf R2 i hi]
          exact (r2p_ok_bounds R2 n2 o2 hgeR2 hr2 i hi).1
      rw [hS2starts] at hgrow
      omega

/-! ### Claim C6: monotonicity in the budget -/

/-- C6: for a fixed shape with all extents at least one and fixed
`pref_axes`, and positive budgets `n1 ≤ n2` for which `shape2chunk`
succeeds, the product of the tuple returned at budget `n2` is at least the
product of the tuple returned at budget `n1`. -/
theorem C6_monotone (shape : List Nat) (pAxes : Option (List (List Nat)))
    (n1 n2 : Int) (o1 o2 : List Nat) (hs : ∀ s ∈ shape, 1 ≤ s)
    (hpos : 0 < n1) (hB : n1 ≤ n2)
    (h1 : shape2chunk shape n1 pAxes = .ok o1)
    (h2 : shape2chunk shape n2 pAxes = .ok o2) :
    o1.prod ≤ o2.prod := by
  obtain ⟨_, _, R1, hf1, hr1⟩ := shape2chunk_ok_elim _ _ _ _ h1
  obtain ⟨_, _, R2, hf2, hr2⟩ := shape2chunk_ok_elim _ _ _ _ h2
  exact mono_fold shape n1 n2 hB (pAxes.getD []) (initRngs shape) R1 R2 o1 o2
    (stateOk_init shape hs) hf1 hf2 hr1 hr2

theorem C6_monotone_witness :
    (shape2chunk [2, 3] 3 none = Except.ok [2, 1] ∧
      shape2chunk [2, 3] 4 none = Except.ok [2, 2]) ∧
      ([2, 1] : List Nat).prod ≤ ([2, 2] : List Nat).prod :=
  ⟨⟨by decide, by decide⟩,
    C6_monotone [2, 3] none 3 4 [2, 1] [2, 2] (by decide) (by decide) (by decide)
      (by decide) (by decide)⟩

end Brnc
